import Mathlib

/-!
Verification development for the txt-to-XML conversion pipeline
(`parser.py`, `transliteration.py`, `converter.py`, orchestrated by `main.py`).

Strings are embedded as `List Char`; every Python string primitive used by the
source (`str.strip`, `str.rstrip`, `str.lower`, `str.isalnum`, `str.split`,
`str.replace`, and the `re` patterns the source compiles) is given an explicit
executable model below, and the three core source functions
(`parse_txt_file`, `normalize_parameter_name`, `create_xml_document`)
are translated on top of those models.
-/

deriving instance DecidableEq for Except

namespace TxtXml

/-- Whitespace as Python defines it for `str.strip()`, `str.isspace()` and the
regex class `\s` on `str` patterns: ASCII space, `\t`, `\n`, `\v`, `\f`, `\r`,
the information-separator controls, NEL, NBSP, and the Unicode space
separators. -/
def pyIsSpace (c : Char) : Bool :=
  let n := c.toNat
  (n == 0x20) || (decide (0x09 ≤ n) && decide (n ≤ 0x0d)) ||
  (decide (0x1c ≤ n) && decide (n ≤ 0x1f)) ||
  (n == 0x85) || (n == 0xa0) || (n == 0x1680) ||
  (decide (0x2000 ≤ n) && decide (n ≤ 0x200a)) ||
  (n == 0x2028) || (n == 0x2029) || (n == 0x202f) || (n == 0x205f) ||
  (n == 0x3000)

/-- Python `str.isalnum` restricted to the code-point ranges this development
exercises: ASCII digits and letters, the Latin-1 letters and numeric signs
(ª µ º, ² ³ ¹, ¼ ½ ¾), the Latin Extended letters, the lowercase Greek
letters, and the Cyrillic block (minus its combining marks and the symbol
0x482).  Code points outside these ranges are treated as non-alphanumeric;
`alnumModelled` below names the region where this model is checked against
CPython point by point. -/
def pyIsAlnum (c : Char) : Bool :=
  let n := c.toNat
  (decide (0x30 ≤ n) && decide (n ≤ 0x39)) ||
  (decide (0x41 ≤ n) && decide (n ≤ 0x5a)) ||
  (decide (0x61 ≤ n) && decide (n ≤ 0x7a)) ||
  (n == 0xaa) || (n == 0xb5) || (n == 0xba) ||
  (decide (0xb2 ≤ n) && decide (n ≤ 0xb3)) || (n == 0xb9) ||
  (decide (0xbc ≤ n) && decide (n ≤ 0xbe)) ||
  (decide (0xc0 ≤ n) && decide (n ≤ 0x24f) && !(n == 0xd7) && !(n == 0xf7)) ||
  (decide (0x3b1 ≤ n) && decide (n ≤ 0x3c9)) ||
  (decide (0x400 ≤ n) && decide (n ≤ 0x481)) ||
  (decide (0x48a ≤ n) && decide (n ≤ 0x4ff))

/-- The code-point repertoire on which `pyIsAlnum` agrees with CPython's
`str.isalnum` at every point: the Latin blocks through Latin Extended-B,
the combining diacritical marks, the lowercase Greek letters, and the
Cyrillic block.  Theorems that quantify over arbitrary characters restrict
themselves to this region, where the classifier is faithful. -/
def alnumModelled (c : Char) : Bool :=
  let n := c.toNat
  decide (n ≤ 0x24f) ||
  (decide (0x300 ≤ n) && decide (n ≤ 0x36f)) ||
  (decide (0x3b1 ≤ n) && decide (n ≤ 0x3c9)) ||
  (decide (0x400 ≤ n) && decide (n ≤ 0x4ff))

/-- The one-to-one part of Python `str.lower`, modelled on the ranges
exercised here: ASCII `A`-`Z`, the Latin-1 capitals `À`-`Þ` (excluding `×`),
and the Cyrillic capitals U+0400-U+042F; all other code points are left
unchanged.  The single one-to-many lowercase mapping of `str.lower`,
`'İ'` (U+0130) → `"i"` + U+0307, is handled by `pyLowerS`. -/
def pyLower (c : Char) : Char :=
  let n := c.toNat
  if 0x41 ≤ n ∧ n ≤ 0x5a then Char.ofNat (n + 0x20)
  else if 0xc0 ≤ n ∧ n ≤ 0xde ∧ n ≠ 0xd7 then Char.ofNat (n + 0x20)
  else if 0x400 ≤ n ∧ n ≤ 0x40f then Char.ofNat (n + 0x50)
  else if 0x410 ≤ n ∧ n ≤ 0x42f then Char.ofNat (n + 0x20)
  else c

/-- The combining dot above, U+0307: the second character of `'İ'.lower()`. -/
def combiningDot : Char := Char.ofNat 0x307

/-- Python `str.lower` at string level.  Per character it agrees with
`pyLower`, except at `'İ'` (U+0130), the one code point whose lowercase form
is two characters: `i` followed by the combining dot above U+0307. -/
def pyLowerS : List Char → List Char
  | [] => []
  | c :: r =>
    (if c = 'İ' then ['i', combiningDot] else [pyLower c]) ++ pyLowerS r

/-- `text.lstrip()` restricted to a character predicate: drop matching
characters from the front. -/
def stripLeft (p : Char → Bool) (t : List Char) : List Char := t.dropWhile p

/-- Strip matching characters from both ends (Python `str.strip(chars)`). -/
def stripBoth (p : Char → Bool) (t : List Char) : List Char :=
  ((t.dropWhile p).reverse.dropWhile p).reverse

/-- Python `text.strip()` (no argument): strip whitespace from both ends. -/
def pyStrip (t : List Char) : List Char := stripBoth pyIsSpace t

/-- Python `text.split('\n')`: split on every newline, keeping empty pieces. -/
def splitLines : List Char → List (List Char)
  | [] => [[]]
  | c :: r =>
    if c = '\n' then [] :: splitLines r
    else
      match splitLines r with
      | [] => [[c]]
      | l :: ls => (c :: l) :: ls

/-- `'\n'.join(lines)`: interleave a newline between consecutive lines. -/
def joinNl : List (List Char) → List Char
  | [] => []
  | [l] => l
  | l :: ls => l ++ '\n' :: joinNl ls

/-! ## `transliteration.py` -/

/-- The fixed Cyrillic-to-Latin table `TRANSLIT_MAP` of `transliteration.py`,
as an association list (Python dict with literal keys). -/
def TRANSLIT_MAP : List (Char × List Char) :=
  [('а', ['a']), ('б', ['b']), ('в', ['v']), ('г', ['g']), ('д', ['d']),
   ('е', ['e']), ('ё', ['y', 'o']),
   ('ж', ['z', 'h']), ('з', ['z']), ('и', ['i']), ('й', ['y']), ('к', ['k']),
   ('л', ['l']), ('м', ['m']),
   ('н', ['n']), ('о', ['o']), ('п', ['p']), ('р', ['r']), ('с', ['s']),
   ('т', ['t']), ('у', ['u']),
   ('ф', ['f']), ('х', ['h']), ('ц', ['t', 's']), ('ч', ['c', 'h']),
   ('ш', ['s', 'h']), ('щ', ['s', 'c', 'h']),
   ('ъ', []), ('ы', ['y']), ('ь', []), ('э', ['e']), ('ю', ['y', 'u']),
   ('я', ['y', 'a']),
   ('А', ['A']), ('Б', ['B']), ('В', ['V']), ('Г', ['G']), ('Д', ['D']),
   ('Е', ['E']), ('Ё', ['Y', 'o']),
   ('Ж', ['Z', 'h']), ('З', ['Z']), ('И', ['I']), ('Й', ['Y']), ('К', ['K']),
   ('Л', ['L']), ('М', ['M']),
   ('Н', ['N']), ('О', ['O']), ('П', ['P']), ('Р', ['R']), ('С', ['S']),
   ('Т', ['T']), ('У', ['U']),
   ('Ф', ['F']), ('Х', ['H']), ('Ц', ['T', 's']), ('Ч', ['C', 'h']),
   ('Ш', ['S', 'h']), ('Щ', ['S', 'c', 'h']),
   ('Ъ', []), ('Ы', ['Y']), ('Ь', []), ('Э', ['E']), ('Ю', ['Y', 'u']),
   ('Я', ['Y', 'a'])]

/-- Dictionary lookup `TRANSLIT_MAP[char]` guarded by `char in TRANSLIT_MAP`. -/
def translitLookup (c : Char) : Option (List Char) := TRANSLIT_MAP.lookup c

/-- The per-character body of the loop in `transliterate`: table hit, else
alphanumeric / underscore / hyphen / space pass through, else `'_'`. -/
def translitOne (c : Char) : List Char :=
  match translitLookup c with
  | some s => s
  | none => if pyIsAlnum c || c == '_' || c == '-' || c == ' ' then [c] else ['_']

/-- `transliterate(text)` from `transliteration.py`: the character loop,
concatenating each character's contribution. -/
def transliterate : List Char → List Char
  | [] => []
  | c :: r => translitOne c ++ transliterate r

/-- `text.rstrip(';.,!?')`: drop trailing characters from that fixed set. -/
def rstripPunctSet (t : List Char) : List Char :=
  (t.reverse.dropWhile (fun c =>
    c == ';' || c == '.' || c == ',' || c == '!' || c == '?')).reverse

/-- Python `text.replace(a, b)` for single characters. -/
def replaceChar (a b : Char) (t : List Char) : List Char :=
  t.map (fun c => if c == a then b else c)

/-- One pass of `text.replace('__', '_')`: leftmost non-overlapping
replacement of double underscores by single ones. -/
def collapseStep : List Char → List Char
  | '_' :: '_' :: r => '_' :: collapseStep r
  | c :: r => c :: collapseStep r
  | [] => []

/-- The loop guard `'__' in transliterated`. -/
def hasDoubleUnd : List Char → Bool
  | '_' :: '_' :: _ => true
  | _ :: r => hasDoubleUnd r
  | [] => false

/-- The `while '__' in transliterated:` loop of `normalize_parameter_name`.
Each pass shortens the string, so `t.length` passes always suffice; the fuel
only makes the recursion structural. -/
def collapseLoop : Nat → List Char → List Char
  | 0, t => t
  | fuel + 1, t => if hasDoubleUnd t then collapseLoop fuel (collapseStep t) else t

/-- `normalize_parameter_name(text)` from `transliteration.py`: strip trailing
punctuation, transliterate the stripped text, lower-case, turn spaces and
hyphens into underscores, collapse underscore runs, trim edge underscores. -/
def normalize_parameter_name (text : List Char) : List Char :=
  let t := rstripPunctSet text
  let t := transliterate (pyStrip t)
  let t := pyLowerS t
  let t := replaceChar '-' '_' (replaceChar ' ' '_' t)
  let t := collapseLoop t.length t
  stripBoth (fun c => c == '_') t

/-- Error raised by the strategy dispatchers for an unknown strategy name. -/
inductive StrategyError
  | unknownStrategy
  deriving DecidableEq, Repr

/-- `translate_with_strategy(text, strategy)`: both known strategies currently
normalize via transliteration; anything else raises. -/
def translate_with_strategy (text strategy : List Char) :
    Except StrategyError (List Char) :=
  if strategy = "translit".toList then .ok (normalize_parameter_name text)
  else if strategy = "llm".toList then .ok (normalize_parameter_name text)
  else .error .unknownStrategy

/-- `split_parameter_with_strategy(text, strategy)`: both known strategies
currently return the single label unchanged; anything else raises. -/
def split_parameter_with_strategy (text strategy : List Char) :
    Except StrategyError (List (List Char)) :=
  if strategy = "none".toList then .ok [text]
  else if strategy = "llm".toList then .ok [text]
  else .error .unknownStrategy

/-! ## `parser.py`

`parse_txt_file` reads the file into `content` and then works purely on that
string; we embed it as a function of `content`.  Its primary parameter scan is
`re.findall` with the compiled pattern `^[-•]\s+(.+?)(?:[;.]\s*)?$` under
`re.MULTILINE`.  The functions below are an operational model of the CPython
backtracking engine specialised to that pattern: `\s+` is greedy (longest
first), `.+?` is lazy (shortest first, never matching `'\n'`), the optional
group tries the `[;.]\s*` branch before the empty one with `\s*` greedy, and
`$` matches at end of input or before a `'\n'`. -/

/-- Bullet markers `[-•]`. -/
def isMarker (c : Char) : Bool := c == '-' || c == '•'

/-- The trailing-punctuation class `[;.]`. -/
def isSemiDot (c : Char) : Bool := c == ';' || c == '.'

/-- `$` under `re.MULTILINE`: end of input or immediately before a newline. -/
def dollarAt : List Char → Bool
  | [] => true
  | c :: _ => c == '\n'

/-- Length of the maximal leading `\s` run. -/
def wsRunLen (t : List Char) : Nat := (t.takeWhile pyIsSpace).length

/-- Length of the maximal leading run of characters `.` can match
(anything but newline). -/
def nonNlRunLen (t : List Char) : Nat := (t.takeWhile (fun c => !(c == '\n'))).length

/-- Backtracking search for `\s*$` after the `[;.]`: try consuming `m`
whitespace characters, longest first.  Returns the consumed length. -/
def tryWsDollar (r : List Char) : Nat → Option Nat
  | 0 => if dollarAt r then some 0 else none
  | m + 1 =>
    if dollarAt (r.drop (m + 1)) then some (m + 1) else tryWsDollar r m

/-- The optional group `(?:[;.]\s*)?$` at the current position: the `[;.]\s*`
branch first (greedy option), then the empty branch, each followed by `$`.
Returns how many characters the group consumed. -/
def tryOpt (r : List Char) : Option Nat :=
  let punctBranch : Option Nat :=
    match r with
    | c :: rest =>
      if isSemiDot c then (tryWsDollar rest (wsRunLen rest)).map (· + 1) else none
    | [] => none
  match punctBranch with
  | some v => some v
  | none => if dollarAt r then some 0 else none

/-- Lazy search for `(.+?)(?:[;.]\s*)?$` once `\s+` has been fixed: try capture
lengths `k, k+1, ...` (at most `fuel` candidates), shortest first.  Returns the
capture length and the length consumed by the optional group. -/
def tryDotGo (r : List Char) (k : Nat) : Nat → Option (Nat × Nat)
  | 0 => none
  | fuel + 1 =>
    match tryOpt (r.drop k) with
    | some m => some (k, m)
    | none => tryDotGo r (k + 1) fuel

/-- Greedy search for the `\s+` length: try `l, l-1, ..., 1`, longest first.
Returns the `\s+` length, the capture length and the optional-group length. -/
def tryWs (r : List Char) : Nat → Option (Nat × Nat × Nat)
  | 0 => none
  | l + 1 =>
    let rest := r.drop (l + 1)
    match tryDotGo rest 1 (nonNlRunLen rest) with
    | some (k, m) => some (l + 1, k, m)
    | none => tryWs r l

/-- One anchored match attempt of `[-•]\s+(.+?)(?:[;.]\s*)?$` at the head of
`s` (the caller guarantees `^` holds there).  Returns the captured substring
and the total number of characters the match consumed. -/
def tryMatch (s : List Char) : Option (List Char × Nat) :=
  match s with
  | c :: rest =>
    if isMarker c then
      match tryWs rest (wsRunLen rest) with
      | some (l, k, m) => some ((rest.drop l).take k, 1 + l + k + m)
      | none => none
    else none
  | [] => none

/-- Whether the last of the `n` consumed characters was a newline (so that the
position after the match is again a line start).  `n ≥ 2` for every match. -/
def endsAtLineStart (s : List Char) (n : Nat) : Bool :=
  match (s.drop (n - 1)).head? with
  | some c => c == '\n'
  | none => false

/-- The `re.findall` scan: walk the string, attempting the anchored match at
every position where `^` holds (start of input or just after a newline) and
continuing right after each match.  Each step consumes at least one character,
so `s.length + 1` fuel always suffices. -/
def findallGo : List Char → Bool → Nat → List (List Char)
  | _, _, 0 => []
  | s, atStart, fuel + 1 =>
    match s with
    | [] => []
    | c :: rest =>
      if atStart then
        match tryMatch (c :: rest) with
        | some (cap, n) =>
          cap :: findallGo ((c :: rest).drop n) (endsAtLineStart (c :: rest) n) fuel
        | none => findallGo rest (c == '\n') fuel
      else findallGo rest (c == '\n') fuel

/-- `param_pattern.findall(content)`. -/
def findallParams (content : List Char) : List (List Char) :=
  findallGo content true (content.length + 1)

/-- `re.sub(r'[;.]\s*$', '', param)`: delete the leftmost `;` or `.` that is
followed only by whitespace up to the end (where `$` can also sit just before
one final newline, which that whitespace then covers). -/
def subSemiDotEnd : List Char → List Char
  | [] => []
  | c :: rest =>
    if isSemiDot c && rest.all pyIsSpace then [] else c :: subSemiDotEnd rest

/-- The per-match post-processing of the primary loop:
`param = match.strip()`, then `re.sub(r'[;.]\s*$', '', param).strip()`,
keeping only non-empty results. -/
def primaryParams (content : List Char) : List (List Char) :=
  (findallParams content).filterMap (fun cap =>
    let p := pyStrip (subSemiDotEnd (pyStrip cap))
    if p = [] then none else some p)

/-- `re.match(r'^[-•]\s+', line)`: a marker character followed by at least one
whitespace character. -/
def isBulletPrefix : List Char → Bool
  | c1 :: c2 :: _ => isMarker c1 && pyIsSpace c2
  | _ => false

/-- `re.sub(r'^[-•]\s+', '', line)`: drop the marker and the following
(greedy, hence maximal) whitespace run, when that prefix is present. -/
def removeBulletPrefix (l : List Char) : List Char :=
  match l with
  | c :: rest =>
    if isMarker c && decide (1 ≤ wsRunLen rest) then rest.drop (wsRunLen rest) else l
  | [] => []

/-- The fallback loop over `lines[1:]`: strip each line, keep bullet lines,
drop the marker, strip one trailing `;`/`.` run, keep non-empty labels. -/
def fallbackParams (lines : List (List Char)) : List (List Char) :=
  (lines.drop 1).filterMap (fun line =>
    let l := pyStrip line
    if isBulletPrefix l then
      let p := pyStrip (subSemiDotEnd (removeBulletPrefix l))
      if p = [] then none else some p
    else none)

/-- The title loop: the first line whose stripped form is non-empty and not a
bullet line; the stripped form is the document name. -/
def findTitle : List (List Char) → Option (List Char)
  | [] => none
  | l :: ls =>
    let t := pyStrip l
    if t ≠ [] ∧ ¬ isBulletPrefix t = true then some t else findTitle ls

/-- The two `ValueError`s `parse_txt_file` can raise, distinguished by their
messages. -/
inductive ParseError
  | emptyInput
  | noTitle
  deriving DecidableEq, Repr

/-- `parse_txt_file` from `parser.py` as a function of the file's text:
reject blank input, find the title, extract parameters with the multiline
pattern, and fall back to the line-by-line scan when that finds nothing. -/
def parse_txt_file (content : List Char) :
    Except ParseError (List Char × List (List Char)) :=
  if pyStrip content = [] then .error .emptyInput
  else
    let lines := splitLines content
    match findTitle lines with
    | none => .error .noTitle
    | some document_name =>
      let params := primaryParams content
      let params := if params = [] then fallbackParams lines else params
      .ok (document_name, params)

/-! ## `converter.py`

`create_xml_document` builds a flat ElementTree (`document` root, one empty
child per parameter), serialises it with `tostring`, pretty-prints through
`xml.dom.minidom`, drops the XML declaration line, strips blank edges and
finally rewrites self-closing tags into open/close pairs with
`re.sub(r'<([a-zA-Z_][a-zA-Z0-9_-]*)\s*/>', r'<\1></\1>', ...)`. -/

/-- The tag-name start class `[a-zA-Z_]` of the cleanup regex. -/
def xmlNameStart (c : Char) : Bool :=
  let n := c.toNat
  (decide (0x61 ≤ n) && decide (n ≤ 0x7a)) ||
  (decide (0x41 ≤ n) && decide (n ≤ 0x5a)) || n == 0x5f

/-- The tag-name continuation class `[a-zA-Z0-9_-]` of the cleanup regex. -/
def xmlNameChar (c : Char) : Bool :=
  xmlNameStart c || (decide (0x30 ≤ c.toNat) && decide (c.toNat ≤ 0x39)) ||
  c.toNat == 0x2d

/-- Attempt to match `([a-zA-Z0-9_-]*)\s*/>` right after a `<`: greedy maximal
name and whitespace runs (no backtracking can help, since `/` is in neither
class), then the literal `/>`.  Returns the captured name and the tail after
the match. -/
def selfCloseMatch (r : List Char) : Option (List Char × List Char) :=
  match r with
  | c :: r' =>
    if xmlNameStart c then
      match (r'.dropWhile xmlNameChar).dropWhile pyIsSpace with
      | '/' :: '>' :: tail => some (c :: r'.takeWhile xmlNameChar, tail)
      | _ => none
    else none
  | [] => none

/-- The scan of the global `re.sub` rewriting every self-closing tag
`<name/>` (name in the identifier classes above, optionally followed by
whitespace) into `<name></name>`: walk left to right, replacing each match and
continuing after it, copying every other character.  Every step consumes at
least one character, so `s.length` fuel always suffices; the fuel only makes
the recursion structural. -/
def fixGo : Nat → List Char → List Char
  | 0, s => s
  | _ + 1, [] => []
  | fuel + 1, '<' :: r =>
    match selfCloseMatch r with
    | some (name, tail) =>
      '<' :: (name ++ '>' :: '<' :: '/' :: (name ++ '>' :: fixGo fuel tail))
    | none => '<' :: fixGo fuel r
  | fuel + 1, c :: r => c :: fixGo fuel r

/-- `re.sub(r'<([a-zA-Z_][a-zA-Z0-9_-]*)\s*/>', r'<\1></\1>', result)`. -/
def fixSelfClosing (s : List Char) : List Char := fixGo s.length s

/-- The XML declaration line `minidom.toprettyxml` emits. -/
def xmlDeclLine : List Char := "<?xml version=\"1.0\" ?>".toList

/-- Modelled behaviour of `xml.etree.ElementTree.tostring` composed with
`xml.dom.minidom.parseString(...).toprettyxml(indent="    ")` on the flat
document the source builds: a declaration line, the `document` root, one
4-space-indented self-closed child per parameter in order, then the closing
root tag, every line terminated by `'\n'`; a childless root collapses to the
single self-closed line `<document/>`. -/
def toprettyxmlLines (parameters : List (List Char)) : List (List Char) :=
  match parameters with
  | [] => [xmlDeclLine, "<document/>".toList]
  | _ :: _ =>
    xmlDeclLine :: "<document>".toList ::
      (parameters.map (fun t => "    <".toList ++ t ++ "/>".toList) ++
        ["</document>".toList])

/-- The pretty-printed string itself (each line followed by a newline). -/
def toprettyxml (parameters : List (List Char)) : List Char :=
  (toprettyxmlLines parameters).foldr (fun l acc => l ++ '\n' :: acc) []

/-- `lines and lines[0].startswith('<?xml')`. -/
def startsWithXmlDecl (lines : List (List Char)) : Bool :=
  match lines with
  | l :: _ => "<?xml".toList.isPrefixOf l
  | [] => false

set_option linter.unusedVariables false in
/-- `create_xml_document(document_name, parameters)` from `converter.py`.
The `document_name` argument is accepted but the body never reads it. -/
def create_xml_document (document_name : List Char)
    (parameters : List (List Char)) : List Char :=
  let pretty := toprettyxml parameters
  let lines := splitLines pretty
  let lines := if startsWithXmlDecl lines then lines.drop 1 else lines
  fixSelfClosing (pyStrip (joinNl lines))

/-! ## The pipeline of `main.py`

`process_directory` turns each parsed raw parameter into tag names by first
applying the splitting strategy and then translating every sub-parameter,
keeping the overall order. -/

/-- The parameter-translation loop of `process_directory` in `main.py`. -/
def processParameters (parameters : List (List Char))
    (translation splitting : List Char) :
    Except StrategyError (List (List Char)) :=
  match parameters with
  | [] => .ok []
  | p :: ps => do
    let subs ← split_parameter_with_strategy p splitting
    let translated ← subs.mapM (fun s => translate_with_strategy s translation)
    let rest ← processParameters ps translation splitting
    .ok (translated ++ rest)

/-! ## Spec-side definitions

These definitions are NOT translations of the source; they transcribe the
grammar the specification asserts about normalized tags, so that the code's
outputs can be compared against it. -/

/-- Modelled from the spec: the start class `[A-Za-z_]` of the identifier
grammar for normalized tags. -/
def specIdentStart (c : Char) : Bool :=
  let n := c.toNat
  (decide (0x41 ≤ n) && decide (n ≤ 0x5a)) ||
  (decide (0x61 ≤ n) && decide (n ≤ 0x7a)) || n == 0x5f

/-- Modelled from the spec: the continuation class `[A-Za-z0-9_-]` of the
identifier grammar for normalized tags. -/
def specIdentChar (c : Char) : Bool :=
  specIdentStart c || (decide (0x30 ≤ c.toNat) && decide (c.toNat ≤ 0x39)) ||
  c.toNat == 0x2d

/-- Modelled from the spec: a string matches the identifier grammar
`[A-Za-z_][A-Za-z0-9_-]*` exactly when it is non-empty, starts in the start
class and continues in the continuation class. -/
def matchesIdentGrammar : List Char → Bool
  | [] => false
  | c :: r => specIdentStart c && r.all specIdentChar

/-- ASCII code points, used to delimit the amended normalization grammar. -/
def isAsciiChar (c : Char) : Bool := decide (c.toNat ≤ 0x7f)

/-- Whether a character is a key of `TRANSLIT_MAP`. -/
def inTranslitMap (c : Char) : Bool := (translitLookup c).isSome

/-- Lowercase ASCII letters and digits. -/
def isLowerDigit (c : Char) : Bool :=
  let n := c.toNat
  (decide (0x61 ≤ n) && decide (n ≤ 0x7a)) ||
  (decide (0x30 ≤ n) && decide (n ≤ 0x39))

/-- The grammar the normalizer actually guarantees on ASCII/Cyrillic input:
`[a-z0-9][a-z0-9_]*`. -/
def matchesLowerGrammar : List Char → Bool
  | [] => false
  | c :: r => isLowerDigit c && (c :: r).all (fun d => isLowerDigit d || d == '_')

/-- Uppercase ASCII letters. -/
def isUpperAscii (c : Char) : Bool :=
  decide (0x41 ≤ c.toNat) && decide (c.toNat ≤ 0x5a)

/-- The character classification every output character of
`normalize_parameter_name` satisfies (proved below): an underscore, the
combining dot introduced by lower-casing `'İ'`, or an alphanumeric character
that is not a transliteration key and is already lower-case. -/
def normChar (c : Char) : Prop :=
  c = '_' ∨ c = combiningDot ∨
    (pyIsAlnum c = true ∧ translitLookup c = none ∧ pyLower c = c)

/-! ## General lemmas -/

theorem char_toNat_ofNat_valid (n : Nat) (h : n < 0xd800) :
    (Char.ofNat n).toNat = n := by
  have hv : n.isValidChar := Or.inl h
  simp [Char.ofNat, hv, Char.ofNatAux, Char.toNat, UInt32.toNat]

theorem transliterate_append (a b : List Char) :
    transliterate (a ++ b) = transliterate a ++ transliterate b := by
  induction a with
  | nil => rfl
  | cons c r ih => simp [transliterate, ih]

theorem char_eq_of_toNat {c d : Char} (h : c.toNat = d.toNat) : c = d := by
  rw [← Char.ofNat_toNat c, h, Char.ofNat_toNat]

/-! ### Facts about the transliteration table -/

theorem lookup_some_mem {l : List (Char × List Char)} {c : Char}
    {v : List Char} (h : l.lookup c = some v) : (c, v) ∈ l := by
  induction l with
  | nil => simp [List.lookup] at h
  | cons p tl ih =>
    obtain ⟨k, w⟩ := p
    by_cases hk : c == k
    · simp only [List.lookup, hk] at h
      cases h
      have : c = k := eq_of_beq hk
      subst this
      exact List.mem_cons_self _ _
    · rw [Bool.not_eq_true] at hk
      simp only [List.lookup, hk] at h
      exact List.mem_cons_of_mem _ (ih h)

theorem translit_keys_range :
    ∀ p ∈ TRANSLIT_MAP,
      p.1.toNat = 0x401 ∨ (0x410 ≤ p.1.toNat ∧ p.1.toNat ≤ 0x44f) ∨
      p.1.toNat = 0x451 := by decide

theorem translit_values_ascii :
    ∀ p ∈ TRANSLIT_MAP, ∀ c ∈ p.2,
      (0x41 ≤ c.toNat ∧ c.toNat ≤ 0x5a) ∨ (0x61 ≤ c.toNat ∧ c.toNat ≤ 0x7a) := by
  decide

theorem translitLookup_none_of_notkey {c : Char}
    (h : ¬(c.toNat = 0x401 ∨ (0x410 ≤ c.toNat ∧ c.toNat ≤ 0x44f) ∨
            c.toNat = 0x451)) :
    translitLookup c = none := by
  cases heq : translitLookup c with
  | none => rfl
  | some v =>
    exact absurd (translit_keys_range _ (lookup_some_mem heq)) h

theorem translitLookup_none_of_lt {c : Char} (h : c.toNat < 0x401) :
    translitLookup c = none :=
  translitLookup_none_of_notkey (by omega)

theorem translitLookup_isSome_mid :
    ∀ n : Fin 0x40, (translitLookup (Char.ofNat (0x410 + n.val))).isSome := by
  decide

theorem translitLookup_isSome_of_mid {c : Char}
    (h : 0x410 ≤ c.toNat ∧ c.toNat ≤ 0x44f) :
    (translitLookup c).isSome := by
  have hb : c.toNat - 0x410 < 0x40 := by omega
  have hc : c = Char.ofNat (0x410 + (c.toNat - 0x410)) := by
    apply char_eq_of_toNat
    rw [char_toNat_ofNat_valid _ (by omega)]
    omega
  rw [hc]
  exact translitLookup_isSome_mid ⟨c.toNat - 0x410, hb⟩

theorem yo_upper_key : translitLookup 'Ё' = some ['Y', 'o'] := by decide

/-! ### Facts about `pyLower`, `pyIsAlnum` and `pyIsSpace` -/

theorem toNat_pyLower (c : Char) :
    (pyLower c).toNat =
      if 0x41 ≤ c.toNat ∧ c.toNat ≤ 0x5a then c.toNat + 0x20
      else if 0xc0 ≤ c.toNat ∧ c.toNat ≤ 0xde ∧ c.toNat ≠ 0xd7 then
        c.toNat + 0x20
      else if 0x400 ≤ c.toNat ∧ c.toNat ≤ 0x40f then c.toNat + 0x50
      else if 0x410 ≤ c.toNat ∧ c.toNat ≤ 0x42f then c.toNat + 0x20
      else c.toNat := by
  simp only [pyLower]
  split_ifs <;> first
    | rfl
    | (rw [char_toNat_ofNat_valid _ (by omega)])

theorem pyLower_idem (c : Char) : pyLower (pyLower c) = pyLower c := by
  apply char_eq_of_toNat
  rw [toNat_pyLower (pyLower c)]
  have hm := toNat_pyLower c
  split_ifs at hm with h1 h2 h3 h4 <;> split_ifs <;> omega

theorem isUpperAscii_pyLower (c : Char) : isUpperAscii (pyLower c) = false := by
  have hm := toNat_pyLower c
  simp only [isUpperAscii, Bool.and_eq_false_iff, decide_eq_false_iff_not]
  split_ifs at hm <;> omega

theorem isUpperAscii_eq_false_of_pyLower_fix {c : Char} (h : pyLower c = c) :
    isUpperAscii c = false := by
  have hm := toNat_pyLower c
  rw [h] at hm
  simp only [isUpperAscii, Bool.and_eq_false_iff, decide_eq_false_iff_not]
  split_ifs at hm <;> omega

theorem pyIsAlnum_pyLower {c : Char} (h : pyIsAlnum c = true) :
    pyIsAlnum (pyLower c) = true := by
  have hm := toNat_pyLower c
  simp only [pyIsAlnum, beq_iff_eq, Bool.or_eq_true, Bool.and_eq_true, decide_eq_true_eq,
    Bool.not_eq_eq_eq_not, Bool.not_true, beq_eq_false_iff_ne, ne_eq,
    Nat.beq_eq] at h ⊢
  split_ifs at hm <;> omega

theorem translitLookup_pyLower_none {c : Char}
    (h : translitLookup c = none) : translitLookup (pyLower c) = none := by
  have hm := toNat_pyLower c
  split_ifs at hm with h1 h2 h3 h4
  · exact translitLookup_none_of_lt (by omega)
  · exact translitLookup_none_of_lt (by omega)
  · -- c is in U+0400..U+040F; its lower form is in U+0450..U+045F, which
    -- contains the single key 'ё' = U+0451, image of the key 'Ё' = U+0401.
    apply translitLookup_none_of_notkey
    intro hk
    have hc : c.toNat = 0x401 := by omega
    have : c = 'Ё' := char_eq_of_toNat (by rw [hc]; rfl)
    rw [this, yo_upper_key] at h
    cases h
  · -- c itself would be a key, contradicting the hypothesis
    have := translitLookup_isSome_of_mid (c := c) (by omega)
    rw [h] at this
    cases this
  · rw [char_eq_of_toNat hm]
    exact h

theorem pyIsAlnum_not_space {c : Char} (h : pyIsAlnum c = true) :
    pyIsSpace c = false := by
  simp only [pyIsAlnum, beq_iff_eq, Bool.or_eq_true, Bool.and_eq_true, decide_eq_true_eq,
    Bool.not_eq_eq_eq_not, Bool.not_true, Nat.beq_eq] at h
  simp only [pyIsSpace, Bool.or_eq_false_iff, Bool.and_eq_false_iff,
    decide_eq_false_iff_not, Nat.beq_eq, beq_eq_false_iff_ne, ne_eq]
  omega

theorem pyIsAlnum_toNat_range {c : Char} (h : pyIsAlnum c = true) :
    0x30 ≤ c.toNat ∧ c.toNat ≤ 0x4ff := by
  simp only [pyIsAlnum, beq_iff_eq, Bool.or_eq_true, Bool.and_eq_true, decide_eq_true_eq,
    Bool.not_eq_eq_eq_not, Bool.not_true, Nat.beq_eq] at h
  omega

/-! ### Character tracking through the stages of `normalize_parameter_name` -/

theorem translitOne_of_none {c : Char} (h : translitLookup c = none) :
    translitOne c =
      if pyIsAlnum c || c == '_' || c == '-' || c == ' ' then [c] else ['_'] := by
  unfold translitOne
  rw [h]

theorem translitOne_of_some {c : Char} {s : List Char}
    (h : translitLookup c = some s) : translitOne c = s := by
  unfold translitOne
  rw [h]

theorem translit_chars {t : List Char} {c : Char} (h : c ∈ transliterate t) :
    (pyIsAlnum c = true ∧ translitLookup c = none) ∨
      c = '_' ∨ c = '-' ∨ c = ' ' := by
  induction t with
  | nil => cases h
  | cons a r ih =>
    simp only [transliterate, List.mem_append] at h
    rcases h with h | h
    · cases hl : translitLookup a with
      | some s =>
        rw [translitOne_of_some hl] at h
        have hv := translit_values_ascii _ (lookup_some_mem hl) _ h
        refine Or.inl ⟨?_, translitLookup_none_of_lt (by omega)⟩
        simp only [pyIsAlnum, beq_iff_eq, Bool.or_eq_true, Bool.and_eq_true,
          decide_eq_true_eq, Bool.not_eq_eq_eq_not, Bool.not_true, Nat.beq_eq]
        omega
      | none =>
        rw [translitOne_of_none hl] at h
        split at h
        next hcond =>
          rw [List.mem_singleton] at h
          subst h
          simp only [Bool.or_eq_true, beq_iff_eq] at hcond
          rcases hcond with ((ha | ha) | ha) | ha
          · exact Or.inl ⟨ha, hl⟩
          · exact Or.inr (Or.inl ha)
          · exact Or.inr (Or.inr (Or.inl ha))
          · exact Or.inr (Or.inr (Or.inr ha))
        next =>
          rw [List.mem_singleton] at h
          exact Or.inr (Or.inl h)
    · exact ih h

theorem pyLowerS_chars {t : List Char} {c : Char} (h : c ∈ pyLowerS t) :
    (∃ b ∈ t, c = pyLower b) ∨ ('İ' ∈ t ∧ (c = 'i' ∨ c = combiningDot)) := by
  induction t with
  | nil => cases h
  | cons a r ih =>
    simp only [pyLowerS, List.mem_append] at h
    rcases h with h | h
    · split at h
      next ha =>
        subst ha
        refine Or.inr ⟨List.mem_cons_self _ _, ?_⟩
        rcases List.mem_cons.mp h with rfl | h
        · exact Or.inl rfl
        · rw [List.mem_singleton] at h
          exact Or.inr h
      next =>
        rw [List.mem_singleton] at h
        exact Or.inl ⟨a, List.mem_cons_self _ _, h⟩
    · rcases ih h with ⟨b, hb, rfl⟩ | ⟨hi, hc⟩
      · exact Or.inl ⟨b, List.mem_cons_of_mem _ hb, rfl⟩
      · exact Or.inr ⟨List.mem_cons_of_mem _ hi, hc⟩

theorem pyLowerS_eq_map {t : List Char} (h : 'İ' ∉ t) :
    pyLowerS t = t.map pyLower := by
  induction t with
  | nil => rfl
  | cons a r ih =>
    have ha : ¬(a = 'İ') := fun he => h (he ▸ List.mem_cons_self _ _)
    simp only [pyLowerS, if_neg ha, List.map_cons,
      ih (fun hm => h (List.mem_cons_of_mem _ hm)), List.singleton_append]

theorem pyLower_image_fix {b c : Char} (h : pyLower b = c)
    (hc : ¬((0x61 ≤ c.toNat ∧ c.toNat ≤ 0x7a) ∨
            (0xe0 ≤ c.toNat ∧ c.toNat ≤ 0xfe) ∨
            (0x430 ≤ c.toNat ∧ c.toNat ≤ 0x45f))) : b = c := by
  have hm := toNat_pyLower b
  rw [h] at hm
  split_ifs at hm with h1 h2 h3 h4
  · exact absurd (Or.inl (by omega)) hc
  · exact absurd (Or.inr (Or.inl (by omega))) hc
  · exact absurd (Or.inr (Or.inr (by omega))) hc
  · exact absurd (Or.inr (Or.inr (by omega))) hc
  · exact char_eq_of_toNat hm.symm

theorem lowered_chars {t : List Char} {c : Char}
    (h : c ∈ pyLowerS (transliterate t)) :
    (pyIsAlnum c = true ∧ translitLookup c = none ∧ pyLower c = c) ∨
      c = '_' ∨ c = '-' ∨ c = ' ' ∨ c = combiningDot := by
  rcases pyLowerS_chars h with ⟨b, hb, rfl⟩ | ⟨_, rfl | rfl⟩
  · rcases translit_chars hb with ⟨ha, hn⟩ | rfl | rfl | rfl
    · exact Or.inl ⟨pyIsAlnum_pyLower ha, translitLookup_pyLower_none hn,
        pyLower_idem b⟩
    · exact Or.inr (Or.inl (by decide))
    · exact Or.inr (Or.inr (Or.inl (by decide)))
    · exact Or.inr (Or.inr (Or.inr (Or.inl (by decide))))
  · exact Or.inl (by decide)
  · exact Or.inr (Or.inr (Or.inr (Or.inr rfl)))

theorem beq_eq_false_of_pyIsAlnum {b d : Char} (ha : pyIsAlnum b = true)
    (hd : pyIsAlnum d = false) : (b == d) = false := by
  cases hbe : b == d with
  | false => rfl
  | true =>
    rw [eq_of_beq hbe, hd] at ha
    cases ha

theorem replaced_chars {s : List Char} {c : Char}
    (h : c ∈ replaceChar '-' '_' (replaceChar ' ' '_'
            (pyLowerS (transliterate s)))) :
    normChar c := by
  simp only [replaceChar] at h
  rw [List.mem_map] at h
  obtain ⟨b2, hb2, rfl⟩ := h
  rw [List.mem_map] at hb2
  obtain ⟨b1, hb1, rfl⟩ := hb2
  rcases lowered_chars hb1 with ⟨ha, hn, hf⟩ | rfl | rfl | rfl | rfl
  · rw [beq_eq_false_of_pyIsAlnum ha (by decide)]
    simp only [Bool.false_eq_true, if_false]
    rw [beq_eq_false_of_pyIsAlnum ha (by decide)]
    simp only [Bool.false_eq_true, if_false]
    exact Or.inr (Or.inr ⟨ha, hn, hf⟩)
  · exact Or.inl (by decide)
  · exact Or.inl (by decide)
  · exact Or.inl (by decide)
  · exact Or.inr (Or.inl (by decide))

theorem collapseStep_cons_of_ne {c : Char} {r : List Char}
    (h : ∀ r', c = '_' → r = '_' :: r' → False) :
    collapseStep (c :: r) = c :: collapseStep r := by
  rw [collapseStep.eq_def]
  split
  next r' heq =>
    rw [List.cons.injEq] at heq
    exact absurd (h r' heq.1 heq.2) (fun f => f)
  next c' r' _ heq =>
    rw [List.cons.injEq] at heq
    rw [heq.1, heq.2]
  next heq => cases heq

theorem collapseStep_subset {t : List Char} {c : Char}
    (h : c ∈ collapseStep t) : c ∈ t := by
  induction t using collapseStep.induct with
  | case1 r ih =>
    rw [collapseStep] at h
    rcases List.mem_cons.mp h with rfl | h
    · exact List.mem_cons_self _ _
    · exact List.mem_cons_of_mem _ (List.mem_cons_of_mem _ (ih h))
  | case2 a r hne ih =>
    rw [collapseStep_cons_of_ne hne] at h
    rcases List.mem_cons.mp h with rfl | h
    · exact List.mem_cons_self _ _
    · exact List.mem_cons_of_mem _ (ih h)
  | case3 => cases h

theorem collapseLoop_subset {fuel : Nat} {t : List Char} {c : Char}
    (h : c ∈ collapseLoop fuel t) : c ∈ t := by
  induction fuel generalizing t with
  | zero => exact h
  | succ f ih =>
    rw [collapseLoop] at h
    split at h
    · exact collapseStep_subset (ih h)
    · exact h

theorem stripBoth_subset {p : Char → Bool} {t : List Char} {c : Char}
    (h : c ∈ stripBoth p t) : c ∈ t := by
  unfold stripBoth at h
  rw [List.mem_reverse] at h
  have h1 := (List.dropWhile_sublist (l := (t.dropWhile p).reverse)
    (p := p)).subset h
  rw [List.mem_reverse] at h1
  exact (List.dropWhile_sublist (l := t) (p := p)).subset h1

theorem norm_chars {t : List Char} {c : Char}
    (h : c ∈ normalize_parameter_name t) : normChar c := by
  unfold normalize_parameter_name at h
  exact replaced_chars (collapseLoop_subset (stripBoth_subset h))

/-! ### Underscore runs and edge underscores -/

theorem hasDD_cons_of_ne {c : Char} {r : List Char}
    (h : ∀ r', c = '_' → r = '_' :: r' → False) :
    hasDoubleUnd (c :: r) = hasDoubleUnd r := by
  rw [hasDoubleUnd.eq_def]
  split
  next r' heq =>
    rw [List.cons.injEq] at heq
    exact absurd (h r' heq.1 heq.2) (fun f => f)
  next c' r' _ heq =>
    rw [List.cons.injEq] at heq
    rw [heq.2]
  next heq => cases heq

theorem hasDD_tail {c : Char} {r : List Char}
    (h : hasDoubleUnd (c :: r) = false) : hasDoubleUnd r = false := by
  cases r with
  | nil => rfl
  | cons rh rt =>
    by_cases hc : c = '_' ∧ rh = '_'
    · rw [hc.1, hc.2] at h
      cases h
    · rw [hasDD_cons_of_ne] at h
      · exact h
      · intro r' h1 h2
        rw [List.cons.injEq] at h2
        exact hc ⟨h1, h2.1⟩

theorem hasDD_append_right {a b : List Char} (h : hasDoubleUnd a = true) :
    hasDoubleUnd (a ++ b) = true := by
  induction a using hasDoubleUnd.induct with
  | case1 r => rfl
  | case2 c r hne ih =>
    rw [hasDD_cons_of_ne hne] at h
    have hr : r ≠ [] := by
      intro hnil
      rw [hnil] at h
      cases h
    rw [List.cons_append, hasDD_cons_of_ne]
    · exact ih h
    · intro r' h1 h2
      cases r with
      | nil => exact hr rfl
      | cons rh rt =>
        rw [List.cons_append, List.cons.injEq] at h2
        exact hne rt h1 (by rw [h2.1])
  | case3 => cases h

theorem hasDD_false_ofPrefix {a b : List Char} (hp : a <+: b)
    (h : hasDoubleUnd b = false) : hasDoubleUnd a = false := by
  cases ht : hasDoubleUnd a with
  | false => rfl
  | true =>
    obtain ⟨s, rfl⟩ := hp
    rw [hasDD_append_right ht] at h
    cases h

theorem hasDD_false_suffix {a b : List Char} (hs : a <:+ b)
    (h : hasDoubleUnd b = false) : hasDoubleUnd a = false := by
  obtain ⟨s, rfl⟩ := hs
  induction s with
  | nil => exact h
  | cons x s ih => exact ih (hasDD_tail h)

theorem collapseStep_length_le (t : List Char) :
    (collapseStep t).length ≤ t.length := by
  induction t using collapseStep.induct with
  | case1 r ih =>
    rw [collapseStep]
    simp only [List.length_cons]
    omega
  | case2 c r hne ih =>
    rw [collapseStep_cons_of_ne hne]
    simp only [List.length_cons]
    omega
  | case3 => simp [collapseStep]

theorem collapseStep_length_lt {t : List Char} (h : hasDoubleUnd t = true) :
    (collapseStep t).length < t.length := by
  induction t using collapseStep.induct with
  | case1 r ih =>
    rw [collapseStep]
    have := collapseStep_length_le r
    simp only [List.length_cons]
    omega
  | case2 c r hne ih =>
    rw [hasDD_cons_of_ne hne] at h
    rw [collapseStep_cons_of_ne hne]
    have := ih h
    simp only [List.length_cons]
    omega
  | case3 => cases h

theorem hasDD_collapseLoop {fuel : Nat} {t : List Char}
    (h : t.length ≤ fuel) : hasDoubleUnd (collapseLoop fuel t) = false := by
  induction fuel generalizing t with
  | zero =>
    have : t = [] := List.length_eq_zero.mp (Nat.le_zero.mp h)
    rw [this]
    rfl
  | succ f ih =>
    rw [collapseLoop]
    cases hdd : hasDoubleUnd t with
    | false => simpa using hdd
    | true =>
      simp only [if_true]
      exact ih (by have := collapseStep_length_lt hdd; omega)

theorem collapseLoop_eq_self {fuel : Nat} {t : List Char}
    (h : hasDoubleUnd t = false) : collapseLoop fuel t = t := by
  cases fuel with
  | zero => rfl
  | succ f =>
    rw [collapseLoop, h]
    simp

theorem stripBoth_isPrefixOf (p : Char → Bool) (t : List Char) :
    stripBoth p t <+: t.dropWhile p := by
  unfold stripBoth
  rw [← List.reverse_suffix, List.reverse_reverse]
  exact List.dropWhile_suffix p

theorem head?_dropWhile {p : Char → Bool} {t : List Char} {c : Char}
    (h : (t.dropWhile p).head? = some c) : p c = false := by
  induction t with
  | nil => cases h
  | cons a r ih =>
    rw [List.dropWhile_cons] at h
    split at h
    · exact ih h
    next hp =>
      rw [List.head?_cons, Option.some.injEq] at h
      subst h
      simpa using hp

theorem head_not_of_stripBoth {p : Char → Bool} {t : List Char} {c : Char}
    (h : (stripBoth p t).head? = some c) : p c = false := by
  obtain ⟨s, hs⟩ := stripBoth_isPrefixOf p t
  have hne : stripBoth p t ≠ [] := by
    intro hnil
    rw [hnil] at h
    cases h
  apply head?_dropWhile (t := t)
  rw [← hs, List.head?_append_of_ne_nil _ hne]
  exact h

theorem getLast_not_of_stripBoth {p : Char → Bool} {t : List Char} {c : Char}
    (h : (stripBoth p t).getLast? = some c) : p c = false := by
  unfold stripBoth at h
  rw [List.getLast?_reverse] at h
  exact head?_dropWhile h

theorem norm_head_not_underscore {t : List Char} {c : Char}
    (h : (normalize_parameter_name t).head? = some c) : (c == '_') = false := by
  simp only [normalize_parameter_name] at h
  exact head_not_of_stripBoth (p := fun x => x == '_') h

theorem norm_getLast_not_underscore {t : List Char} {c : Char}
    (h : (normalize_parameter_name t).getLast? = some c) :
    (c == '_') = false := by
  simp only [normalize_parameter_name] at h
  exact getLast_not_of_stripBoth (p := fun x => x == '_') h

theorem norm_hasDD_false (t : List Char) :
    hasDoubleUnd (normalize_parameter_name t) = false := by
  unfold normalize_parameter_name
  apply hasDD_false_ofPrefix (stripBoth_isPrefixOf _ _)
  apply hasDD_false_suffix (List.dropWhile_suffix _)
  exact hasDD_collapseLoop (Nat.le_refl _)

/-- C9: for every input, the normalizer's output has no run of two
underscores, neither starts nor ends with an underscore, and contains no
uppercase ASCII letter. -/
theorem normalize_no_underscore_artifacts (t : List Char) :
    hasDoubleUnd (normalize_parameter_name t) = false ∧
    ((normalize_parameter_name t).head? == some '_') = false ∧
    ((normalize_parameter_name t).getLast? == some '_') = false ∧
    (normalize_parameter_name t).all (fun c => !isUpperAscii c) = true := by
  refine ⟨norm_hasDD_false t, ?_, ?_, ?_⟩
  · cases hh : (normalize_parameter_name t).head? with
    | none => rfl
    | some c =>
      unfold normalize_parameter_name at hh
      have := head_not_of_stripBoth hh
      simpa using this
  · cases hh : (normalize_parameter_name t).getLast? with
    | none => rfl
    | some c =>
      unfold normalize_parameter_name at hh
      have := getLast_not_of_stripBoth hh
      simpa using this
  · rw [List.all_eq_true]
    intro c hc
    rcases norm_chars hc with rfl | rfl | ⟨_, _, hf⟩
    · decide
    · decide
    · rw [isUpperAscii_eq_false_of_pyLower_fix hf]
      rfl

/-! ### Character tracking under the ASCII/Cyrillic input restriction -/

theorem rstrip_subset {t : List Char} {c : Char} (h : c ∈ rstripPunctSet t) :
    c ∈ t := by
  unfold rstripPunctSet at h
  rw [List.mem_reverse] at h
  have h1 := (List.dropWhile_sublist _).subset h
  rw [List.mem_reverse] at h1
  exact h1

theorem translit_chars_ascii {t : List Char}
    (hres : ∀ a ∈ t, (isAsciiChar a || inTranslitMap a) = true) :
    ∀ c ∈ transliterate t, c.toNat ≤ 0x7f := by
  induction t with
  | nil => intro c hc; cases hc
  | cons a r ih =>
    intro c hc
    simp only [transliterate, List.mem_append] at hc
    rcases hc with hc | hc
    · cases hl : translitLookup a with
      | some s =>
        rw [translitOne_of_some hl] at hc
        have hv := translit_values_ascii _ (lookup_some_mem hl) _ hc
        omega
      | none =>
        rw [translitOne_of_none hl] at hc
        have ha := hres a (List.mem_cons_self _ _)
        rw [Bool.or_eq_true] at ha
        rcases ha with ha | ha
        · split at hc
          · rw [List.mem_singleton] at hc
            subst hc
            simpa [isAsciiChar] using ha
          · rw [List.mem_singleton] at hc
            subst hc
            decide
        · unfold inTranslitMap at ha
          rw [hl] at ha
          cases ha
    · exact ih (fun a ha => hres a (List.mem_cons_of_mem _ ha)) c hc

theorem isLowerDigit_pyLower_of_ascii {c : Char} (h : pyIsAlnum c = true)
    (ha : c.toNat ≤ 0x7f) : isLowerDigit (pyLower c) = true := by
  have hm := toNat_pyLower c
  simp only [pyIsAlnum, beq_iff_eq, Bool.or_eq_true, Bool.and_eq_true, decide_eq_true_eq,
    Bool.not_eq_eq_eq_not, Bool.not_true, Nat.beq_eq] at h
  simp only [isLowerDigit, Bool.or_eq_true, Bool.and_eq_true,
    decide_eq_true_eq]
  split_ifs at hm <;> omega

theorem beq_eq_false_of_isLowerDigit {b d : Char} (hb : isLowerDigit b = true)
    (hd : isLowerDigit d = false) : (b == d) = false := by
  cases hbe : b == d with
  | false => rfl
  | true =>
    rw [eq_of_beq hbe, hd] at hb
    cases hb

theorem norm_ascii_chars {t : List Char}
    (hres : ∀ a ∈ t, (isAsciiChar a || inTranslitMap a) = true) :
    ∀ c ∈ normalize_parameter_name t, isLowerDigit c = true ∨ c = '_' := by
  intro c hc
  unfold normalize_parameter_name at hc
  have hc2 := collapseLoop_subset (stripBoth_subset hc)
  have hsres : ∀ a ∈ pyStrip (rstripPunctSet t),
      (isAsciiChar a || inTranslitMap a) = true :=
    fun a ha => hres a (rstrip_subset (stripBoth_subset ha))
  have hnoIDot : 'İ' ∉ transliterate (pyStrip (rstripPunctSet t)) := by
    intro hm
    exact absurd (translit_chars_ascii hsres _ hm) (by decide)
  rw [pyLowerS_eq_map hnoIDot] at hc2
  simp only [replaceChar] at hc2
  rw [List.mem_map] at hc2
  obtain ⟨b2, hb2, rfl⟩ := hc2
  rw [List.mem_map] at hb2
  obtain ⟨b1, hb1, rfl⟩ := hb2
  rw [List.mem_map] at hb1
  obtain ⟨b0, hb0, rfl⟩ := hb1
  have hascii := translit_chars_ascii hsres b0 hb0
  rcases translit_chars hb0 with ⟨ha, _⟩ | rfl | rfl | rfl
  · have hld := isLowerDigit_pyLower_of_ascii ha hascii
    rw [beq_eq_false_of_isLowerDigit hld (by decide)]
    simp only [Bool.false_eq_true, if_false]
    rw [beq_eq_false_of_isLowerDigit hld (by decide)]
    simp only [Bool.false_eq_true, if_false]
    exact Or.inl hld
  · exact Or.inr (by decide)
  · exact Or.inr (by decide)
  · exact Or.inr (by decide)

/-- C2 amended: under the input alphabet the pipeline is built for (ASCII
characters and the mapped Cyrillic letters), every normalizer output is
either empty or matches `[a-z0-9][a-z0-9_]*`: only lowercase ASCII letters,
digits and underscores, with a non-underscore first character.  (The spec's
grammar `[A-Za-z_][A-Za-z0-9_-]*` fails in general: the output can be empty,
can start with a digit, and on unmapped non-ASCII alphanumerics can contain
non-Latin characters.) -/
theorem normalize_grammar_amended (t : List Char)
    (hres : ∀ a ∈ t, (isAsciiChar a || inTranslitMap a) = true) :
    normalize_parameter_name t = [] ∨
      matchesLowerGrammar (normalize_parameter_name t) = true := by
  cases hn : normalize_parameter_name t with
  | nil => exact Or.inl rfl
  | cons c r =>
    right
    have hhead : (c == '_') = false := by
      apply norm_head_not_underscore (t := t)
      rw [hn]
      rfl
    have hc : isLowerDigit c = true := by
      rcases norm_ascii_chars hres c (by rw [hn]; exact List.mem_cons_self _ _)
        with h | rfl
      · exact h
      · simp at hhead
    simp only [matchesLowerGrammar]
    rw [hc, Bool.true_and, List.all_eq_true]
    intro d hd
    rcases norm_ascii_chars hres d (by rw [hn]; exact hd) with h | rfl
    · rw [h]
      rfl
    · decide

/-- Witness for the amended C2 at the concrete input `"Дата рождения"`. -/
theorem normalize_grammar_amended_witness :
    normalize_parameter_name "Дата рождения".toList = [] ∨
      matchesLowerGrammar (normalize_parameter_name "Дата рождения".toList) =
        true :=
  normalize_grammar_amended "Дата рождения".toList (by decide)

/-! ### Idempotence of the normalizer -/

theorem dropWhile_eq_self_of_head {p : Char → Bool} {l : List Char}
    (h : ∀ c, l.head? = some c → p c = false) : l.dropWhile p = l := by
  cases l with
  | nil => rfl
  | cons a r =>
    rw [List.dropWhile_cons, h a rfl]
    simp

theorem stripBoth_eq_self {p : Char → Bool} {l : List Char}
    (hh : ∀ c, l.head? = some c → p c = false)
    (hl : ∀ c, l.getLast? = some c → p c = false) : stripBoth p l = l := by
  unfold stripBoth
  rw [dropWhile_eq_self_of_head hh]
  rw [dropWhile_eq_self_of_head (fun c hc => ?_), List.reverse_reverse]
  rw [List.head?_reverse] at hc
  exact hl c hc

theorem transliterate_eq_self {l : List Char}
    (h : ∀ c ∈ l, translitOne c = [c]) : transliterate l = l := by
  induction l with
  | nil => rfl
  | cons a r ih =>
    simp only [transliterate]
    rw [h a (List.mem_cons_self _ _),
      ih (fun c hc => h c (List.mem_cons_of_mem _ hc))]
    rfl

theorem map_eq_self {f : Char → Char} {l : List Char}
    (h : ∀ c ∈ l, f c = c) : l.map f = l := by
  induction l with
  | nil => rfl
  | cons a r ih =>
    rw [List.map_cons, h a (List.mem_cons_self _ _),
      ih (fun c hc => h c (List.mem_cons_of_mem _ hc))]

theorem normChar_not_space {c : Char} (h : normChar c) : pyIsSpace c = false := by
  rcases h with rfl | rfl | ⟨ha, _, _⟩
  · decide
  · decide
  · exact pyIsAlnum_not_space ha

theorem normChar_not_rpunct {c : Char} (h : normChar c) :
    (c == ';' || c == '.' || c == ',' || c == '!' || c == '?') = false := by
  rcases h with rfl | rfl | ⟨ha, _, _⟩
  · decide
  · decide
  · rw [beq_eq_false_of_pyIsAlnum ha (by decide),
      beq_eq_false_of_pyIsAlnum ha (by decide),
      beq_eq_false_of_pyIsAlnum ha (by decide),
      beq_eq_false_of_pyIsAlnum ha (by decide),
      beq_eq_false_of_pyIsAlnum ha (by decide)]
    rfl

theorem normChar_translitOne {c : Char} (h : normChar c)
    (hne : c ≠ combiningDot) : translitOne c = [c] := by
  rcases h with rfl | rfl | ⟨ha, hn, _⟩
  · decide
  · exact absurd rfl hne
  · rw [translitOne_of_none hn, ha]
    rfl

theorem normChar_pyLower {c : Char} (h : normChar c) : pyLower c = c := by
  rcases h with rfl | rfl | ⟨_, _, hf⟩
  · decide
  · decide
  · exact hf

theorem normChar_not_hyphen {c : Char} (h : normChar c) : (c == '-') = false := by
  rcases h with rfl | rfl | ⟨ha, _, _⟩
  · decide
  · decide
  · exact beq_eq_false_of_pyIsAlnum ha (by decide)

theorem normChar_not_blank {c : Char} (h : normChar c) : (c == ' ') = false := by
  rcases h with rfl | rfl | ⟨ha, _, _⟩
  · decide
  · decide
  · exact beq_eq_false_of_pyIsAlnum ha (by decide)

theorem normalize_fixed {y : List Char}
    (hc : ∀ c ∈ y, normChar c)
    (hdd : hasDoubleUnd y = false)
    (hh : ∀ c, y.head? = some c → (c == '_') = false)
    (hl : ∀ c, y.getLast? = some c → (c == '_') = false)
    (hno : combiningDot ∉ y) (hIdot : 'İ' ∉ y) :
    normalize_parameter_name y = y := by
  have h1 : rstripPunctSet y = y := by
    unfold rstripPunctSet
    rw [dropWhile_eq_self_of_head (fun c hcr => ?_), List.reverse_reverse]
    rw [List.head?_reverse] at hcr
    exact normChar_not_rpunct (hc c (List.mem_of_mem_getLast? (by simp [hcr])))
  have h2 : pyStrip y = y :=
    stripBoth_eq_self
      (fun c h => normChar_not_space (hc c (List.mem_of_mem_head? (by simp [h]))))
      (fun c h => normChar_not_space (hc c (List.mem_of_mem_getLast? (by simp [h]))))
  have h3 : transliterate y = y :=
    transliterate_eq_self (fun c h =>
      normChar_translitOne (hc c h) (fun he => hno (he ▸ h)))
  have h4 : pyLowerS y = y := by
    rw [pyLowerS_eq_map hIdot]
    exact map_eq_self (fun c h => normChar_pyLower (hc c h))
  have h5 : replaceChar ' ' '_' y = y := by
    unfold replaceChar
    exact map_eq_self (fun c h => by rw [normChar_not_blank (hc c h)]; rfl)
  have h6 : replaceChar '-' '_' y = y := by
    unfold replaceChar
    exact map_eq_self (fun c h => by rw [normChar_not_hyphen (hc c h)]; rfl)
  have h8 : stripBoth (fun c => c == '_') y = y := stripBoth_eq_self hh hl
  simp only [normalize_parameter_name]
  rw [h1, h2, h3, h4, h5, h6, collapseLoop_eq_self hdd, h8]

theorem replace_mem {a b c : Char} {l : List Char}
    (h : c ∈ replaceChar a b l) : c = b ∨ c ∈ l := by
  unfold replaceChar at h
  rw [List.mem_map] at h
  obtain ⟨x, hx, rfl⟩ := h
  cases hxa : (x == a) with
  | true =>
    left
    simp [hxa]
  | false =>
    right
    simpa [hxa] using hx

theorem norm_mem_lower {t : List Char} {c : Char}
    (h : c ∈ normalize_parameter_name t) :
    c = '_' ∨ c ∈ pyLowerS (transliterate (pyStrip (rstripPunctSet t))) := by
  unfold normalize_parameter_name at h
  have h2 := collapseLoop_subset (stripBoth_subset h)
  rcases replace_mem h2 with rfl | h3
  · exact Or.inl rfl
  rcases replace_mem h3 with rfl | h4
  · exact Or.inl rfl
  · exact Or.inr h4

theorem mem_transliterate_IDot {u : List Char} (h : 'İ' ∈ transliterate u) :
    'İ' ∈ u := by
  induction u with
  | nil => cases h
  | cons a r ih =>
    simp only [transliterate, List.mem_append] at h
    rcases h with h | h
    · cases hl : translitLookup a with
      | some s =>
        rw [translitOne_of_some hl] at h
        exact absurd (translit_values_ascii _ (lookup_some_mem hl) _ h)
          (by decide)
      | none =>
        rw [translitOne_of_none hl] at h
        split at h
        · rw [List.mem_singleton] at h
          rw [← h]
          exact List.mem_cons_self _ _
        · rw [List.mem_singleton] at h
          exact absurd h (by decide)
    · exact List.mem_cons_of_mem _ (ih h)

theorem norm_no_IDot {t : List Char} (h : 'İ' ∉ t) :
    'İ' ∉ normalize_parameter_name t := by
  intro hm
  rcases norm_mem_lower hm with he | hm2
  · exact absurd he (by decide)
  rcases pyLowerS_chars hm2 with ⟨b, hb, hbe⟩ | ⟨hi, _⟩
  · have hbI : b = 'İ' := pyLower_image_fix hbe.symm (by decide)
    subst hbI
    exact h (rstrip_subset (stripBoth_subset (mem_transliterate_IDot hb)))
  · exact h (rstrip_subset (stripBoth_subset (mem_transliterate_IDot hi)))

theorem norm_no_dot {t : List Char} (h : 'İ' ∉ t) :
    combiningDot ∉ normalize_parameter_name t := by
  intro hm
  rcases norm_mem_lower hm with he | hm2
  · exact absurd he (by decide)
  rcases pyLowerS_chars hm2 with ⟨b, hb, hbe⟩ | ⟨hi, _⟩
  · have hbd : b = combiningDot := pyLower_image_fix hbe.symm (by decide)
    subst hbd
    rcases translit_chars hb with ⟨ha, _⟩ | he | he | he
    · exact absurd ha (by decide)
    · exact absurd he (by decide)
    · exact absurd he (by decide)
    · exact absurd he (by decide)
  · exact h (rstrip_subset (stripBoth_subset (mem_transliterate_IDot hi)))

/-- Counterexample to C6 as stated: the normalizer is not idempotent.  On
the input `"İ"` (U+0130) the first pass lower-cases `İ` to the two
characters `i` + U+0307 (the single one-to-many lowercase mapping of
`str.lower`), but on a second pass the combining dot U+0307 fails
`isalnum`, becomes an underscore, and is stripped, so
`normalize(normalize("İ"))` is `"i"` while `normalize("İ")` is `"i"` +
U+0307. -/
theorem normalize_idempotent_counterexample :
    normalize_parameter_name ['İ'] = ['i', combiningDot] ∧
    normalize_parameter_name (normalize_parameter_name ['İ']) = ['i'] ∧
    normalize_parameter_name (normalize_parameter_name ['İ']) ≠
      normalize_parameter_name ['İ'] := by
  refine ⟨by decide, by decide, by decide⟩

/-- C6 amended: the normalizer is idempotent on every input without `'İ'`
(U+0130), the single code point whose `str.lower` image is two characters;
its second character U+0307 is not alphanumeric, so a second pass turns it
into an underscore and strips it.  For `'İ'`-free inputs every output is a
fixed point of the normalizer. -/
theorem normalize_idempotent_amended (t : List Char) (h : 'İ' ∉ t) :
    normalize_parameter_name (normalize_parameter_name t) =
      normalize_parameter_name t :=
  normalize_fixed (fun _ hm => norm_chars hm) (norm_hasDD_false t)
    (fun _ hm => norm_head_not_underscore hm)
    (fun _ hm => norm_getLast_not_underscore hm)
    (norm_no_dot h) (norm_no_IDot h)

/-- Witness for the amended C6 at the concrete input `"Дата рождения"`. -/
theorem normalize_idempotent_amended_witness :
    normalize_parameter_name
        (normalize_parameter_name "Дата рождения".toList) =
      normalize_parameter_name "Дата рождения".toList :=
  normalize_idempotent_amended "Дата рождения".toList (by decide)

/-! ### Parser error conditions -/

theorem findTitle_eq_none_iff {lines : List (List Char)} :
    findTitle lines = none ↔
      ∀ l ∈ lines, pyStrip l = [] ∨ isBulletPrefix (pyStrip l) = true := by
  induction lines with
  | nil => simp [findTitle]
  | cons l ls ih =>
    simp only [findTitle]
    split
    next hcond =>
      constructor
      · intro h
        cases h
      · intro h
        rcases h l (List.mem_cons_self _ _) with h1 | h1
        · exact absurd h1 hcond.1
        · exact absurd h1 hcond.2
    next hcond =>
      rw [ih]
      have hl : pyStrip l = [] ∨ isBulletPrefix (pyStrip l) = true := by
        rcases Classical.em (pyStrip l = []) with he | he
        · exact Or.inl he
        · rcases Classical.em (isBulletPrefix (pyStrip l) = true) with hb | hb
          · exact Or.inr hb
          · exact absurd ⟨he, hb⟩ hcond
      simp [List.forall_mem_cons, hl]

/-- C5: `parse_txt_file` raises the empty-input error exactly when the
trimmed input is empty, raises the no-title error exactly when the input is
non-blank but every line trims to empty or to a bullet line, and returns a
(title, parameters) pair in every other case. -/
theorem parse_error_conditions (content : List Char) :
    (parse_txt_file content = .error .emptyInput ↔ pyStrip content = []) ∧
    (parse_txt_file content = .error .noTitle ↔
      (pyStrip content ≠ [] ∧
        ∀ l ∈ splitLines content,
          pyStrip l = [] ∨ isBulletPrefix (pyStrip l) = true)) ∧
    (pyStrip content ≠ [] →
      (∃ l ∈ splitLines content,
          pyStrip l ≠ [] ∧ isBulletPrefix (pyStrip l) = false) →
      ∃ t ps, parse_txt_file content = .ok (t, ps)) := by
  refine ⟨?_, ?_, ?_⟩
  · constructor
    · intro h
      by_contra hne
      simp only [parse_txt_file, if_neg hne] at h
      split at h <;> simp_all
    · intro h
      simp [parse_txt_file, h]
  · constructor
    · intro h
      by_cases he : pyStrip content = []
      · simp [parse_txt_file, he] at h
      · refine ⟨he, ?_⟩
        rw [← findTitle_eq_none_iff]
        simp only [parse_txt_file, if_neg he] at h
        split at h
        next hft => exact hft
        next => simp_all
    · intro ⟨he, hall⟩
      simp only [parse_txt_file, if_neg he]
      rw [← findTitle_eq_none_iff] at hall
      rw [hall]
  · intro he hex
    have hne' : findTitle (splitLines content) ≠ none := by
      intro hnone
      rw [findTitle_eq_none_iff] at hnone
      obtain ⟨l, hmem, h1, h2⟩ := hex
      rcases hnone l hmem with h | h
      · exact h1 h
      · rw [h] at h2
        cases h2
    cases hft : findTitle (splitLines content) with
    | none => exact absurd hft hne'
    | some d =>
      refine ⟨d, if primaryParams content = [] then
        fallbackParams (splitLines content) else primaryParams content, ?_⟩
      simp only [parse_txt_file, if_neg he]
      rw [hft]

/-- Witness for C5's third clause at a concrete titled input. -/
theorem parse_error_conditions_witness :
    ∃ t ps, parse_txt_file "Doc\n- a;".toList = .ok (t, ps) :=
  (parse_error_conditions "Doc\n- a;".toList).2.2 (by decide)
    ⟨"Doc".toList, by decide⟩

/-! ### When the primary pattern cannot match at all -/

theorem tryMatch_eq_none {s : List Char}
    (h : ∀ c, s.head? = some c → isMarker c = false) : tryMatch s = none := by
  cases s with
  | nil => rfl
  | cons c r => simp [tryMatch, h c rfl]

theorem splitLines_ne_nil (s : List Char) : splitLines s ≠ [] := by
  cases s with
  | nil => simp [splitLines]
  | cons c r =>
    simp only [splitLines]
    split
    · simp
    · split <;> simp

theorem head_of_splitLines {s : List Char} {c : Char} (hc : s.head? = some c)
    (hne : c ≠ '\n') : ∃ l0 ls, splitLines s = (c :: l0) :: ls := by
  cases s with
  | nil => cases hc
  | cons a r =>
    rw [List.head?_cons, Option.some.injEq] at hc
    subst hc
    cases hsp : splitLines r with
    | nil => exact absurd hsp (splitLines_ne_nil r)
    | cons l ls =>
      refine ⟨l, ls, ?_⟩
      simp [splitLines, hne, hsp]

theorem tail_lines_mono {a : Char} {r : List Char} {l : List Char}
    (h : l ∈ (splitLines r).tail) : l ∈ (splitLines (a :: r)).tail := by
  by_cases ha : a = '\n'
  · simp only [splitLines, ha, if_pos rfl, List.tail_cons]
    exact List.mem_of_mem_tail h
  · cases hsp : splitLines r with
    | nil => exact absurd hsp (splitLines_ne_nil r)
    | cons l0 ls =>
      simp only [splitLines, if_neg ha, hsp, List.tail_cons]
      rw [hsp, List.tail_cons] at h
      exact h

theorem nban_of_lines {s : List Char}
    (h : ∀ l ∈ (splitLines s).tail, ∀ c, l.head? = some c →
      isMarker c = false) :
    ∀ i, s[i]? = some '\n' → ∀ c, s[i + 1]? = some c →
      isMarker c = false := by
  induction s with
  | nil =>
    intro i hi
    simp at hi
  | cons a r ih =>
    intro i hi c hc
    cases i with
    | zero =>
      simp only [List.getElem?_cons_zero, Option.some.injEq] at hi
      subst hi
      simp only [List.getElem?_cons_succ] at hc
      by_cases hcn : c = '\n'
      · rw [hcn]
        rfl
      · have hrh : r.head? = some c := by
          rw [List.head?_eq_getElem?]
          exact hc
        obtain ⟨l0, ls, hsp⟩ := head_of_splitLines hrh hcn
        have hmem : (c :: l0) ∈ (splitLines ('\n' :: r)).tail := by
          simp only [splitLines, if_pos rfl, List.tail_cons, hsp]
          exact List.mem_cons_self _ _
        exact h _ hmem c rfl
    | succ j =>
      simp only [List.getElem?_cons_succ] at hi hc
      exact ih (fun l hl => h l (tail_lines_mono hl)) j hi c hc

theorem findallGo_eq_nil {fuel : Nat} {s : List Char} {atStart : Bool}
    (hn : ∀ i, s[i]? = some '\n' → ∀ c, s[i + 1]? = some c →
      isMarker c = false)
    (hh : atStart = true → ∀ c, s.head? = some c → isMarker c = false) :
    findallGo s atStart fuel = [] := by
  induction fuel generalizing s atStart with
  | zero => rfl
  | succ f ih =>
    cases s with
    | nil => cases atStart <;> rfl
    | cons a r =>
      have hstep : findallGo (a :: r) atStart (f + 1) =
          findallGo r (a == '\n') f := by
        cases atStart with
        | false => rfl
        | true =>
          have hm : tryMatch (a :: r) = none := tryMatch_eq_none (hh rfl)
          simp [findallGo, hm]
      rw [hstep]
      apply ih
      · intro i hi c hc
        exact hn (i + 1) (by simpa using hi) c (by simpa using hc)
      · intro hb c hc
        have ha : a = '\n' := by simpa using hb
        subst ha
        refine hn 0 (by simp) c ?_
        simp only [List.getElem?_cons_succ]
        rw [← List.head?_eq_getElem?]
        exact hc

theorem findallParams_eq_nil {content : List Char}
    (h : ∀ l ∈ splitLines content, ∀ c, l.head? = some c →
      isMarker c = false) :
    findallParams content = [] := by
  apply findallGo_eq_nil
  · exact nban_of_lines (fun l hl => h l (List.mem_of_mem_tail hl))
  · intro _ c hc
    by_cases hcn : c = '\n'
    · rw [hcn]
      rfl
    · obtain ⟨l0, ls, hsp⟩ := head_of_splitLines hc hcn
      exact h (c :: l0) (by rw [hsp]; exact List.mem_cons_self _ _) c rfl

/-- C10 amended: if no line of the input begins with a bullet-marker
character at column 0, the primary multiline pattern finds no match at all,
so the parameters come from the fallback scan over the trimmed lines after
the first; conversely, whenever the primary scan produces at least one
non-empty parameter, its result is the parameter list — the fallback (and
with it every indented bullet line) is ignored.  (As stated the claim fails:
a column-0 bullet line whose label dies in post-processing — for example
`- .` — still leaves the primary result empty, so indented bullets are NOT
dropped; the fallback also skips the first line of the file.) -/
theorem indented_bullets_amended (content : List Char) :
    ((∀ l ∈ splitLines content, ∀ c, l.head? = some c → isMarker c = false) →
      primaryParams content = [] ∧
      ∀ t ps, parse_txt_file content = .ok (t, ps) →
        ps = fallbackParams (splitLines content)) ∧
    (primaryParams content ≠ [] →
      ∀ t ps, parse_txt_file content = .ok (t, ps) →
        ps = primaryParams content) := by
  constructor
  · intro h
    have hp : primaryParams content = [] := by
      unfold primaryParams
      rw [findallParams_eq_nil h]
      rfl
    refine ⟨hp, ?_⟩
    intro t ps hok
    by_cases he : pyStrip content = []
    · simp [parse_txt_file, he] at hok
    · simp only [parse_txt_file, if_neg he] at hok
      split at hok
      · cases hok
      · rw [Except.ok.injEq, Prod.mk.injEq] at hok
        rw [← hok.2, hp]
        rfl
  · intro hne t ps hok
    by_cases he : pyStrip content = []
    · simp [parse_txt_file, he] at hok
    · simp only [parse_txt_file, if_neg he] at hok
      split at hok
      · cases hok
      · rw [Except.ok.injEq, Prod.mk.injEq] at hok
        rw [← hok.2, if_neg hne]

/-- Witness for the amended C10 at a concrete all-indented input. -/
theorem indented_bullets_amended_witness :
    primaryParams "T\n  - x".toList = [] ∧
    ["x".toList] = fallbackParams (splitLines "T\n  - x".toList) := by
  have h := (indented_bullets_amended "T\n  - x".toList).1 (by decide)
  exact ⟨h.1, h.2 "T".toList ["x".toList] (by decide)⟩

/-! ### Line structure of the pretty-printed XML -/

theorem splitLines_append_line {l rest : List Char} (h : '\n' ∉ l) :
    splitLines (l ++ '\n' :: rest) = l :: splitLines rest := by
  induction l with
  | nil => simp [splitLines]
  | cons c l' ih =>
    have hc : c ≠ '\n' := fun hceq => h (hceq ▸ List.mem_cons_self _ _)
    rw [List.cons_append]
    simp only [splitLines, if_neg hc]
    rw [ih (fun hm => h (List.mem_cons_of_mem _ hm))]

theorem splitLines_foldr {L : List (List Char)} (h : ∀ l ∈ L, '\n' ∉ l) :
    splitLines (L.foldr (fun l acc => l ++ '\n' :: acc) []) = L ++ [[]] := by
  induction L with
  | nil => rfl
  | cons l L' ih =>
    rw [List.foldr_cons, splitLines_append_line (h l (List.mem_cons_self _ _)),
      ih (fun x hx => h x (List.mem_cons_of_mem _ hx))]
    rfl

theorem joinNl_cons {l : List Char} {m : List (List Char)} (h : m ≠ []) :
    joinNl (l :: m) = l ++ '\n' :: joinNl m := by
  cases m with
  | nil => exact absurd rfl h
  | cons a tl => rfl

theorem joinNl_append_nil_single {L : List (List Char)} (h : L ≠ []) :
    joinNl (L ++ [[]]) = joinNl L ++ ['\n'] := by
  induction L with
  | nil => exact absurd rfl h
  | cons l L' ih =>
    cases L' with
    | nil => rfl
    | cons a tl =>
      rw [List.cons_append, joinNl_cons (by simp), ih (by simp),
        joinNl_cons (m := a :: tl) (by simp)]
      simp

theorem joinNl_eq_foldr (l : List Char) (L : List (List Char)) (z : List Char) :
    joinNl (l :: (L ++ [z])) =
      l ++ '\n' :: L.foldr (fun x acc => x ++ '\n' :: acc) z := by
  induction L generalizing l with
  | nil => rfl
  | cons x L' ih =>
    rw [List.cons_append, joinNl_cons (by simp), ih x]
    rfl

theorem joinNl_ne_nil_of_last {L : List (List Char)} {z : List Char}
    (h : z ≠ []) : joinNl (L ++ [z]) ≠ [] := by
  cases L with
  | nil => simpa [joinNl] using h
  | cons a tl =>
    rw [List.cons_append, joinNl_cons (by simp)]
    simp

theorem joinNl_getLast {L : List (List Char)} {z : List Char} (h : z ≠ []) :
    (joinNl (L ++ [z])).getLast? = z.getLast? := by
  induction L with
  | nil => rfl
  | cons a tl ih =>
    rw [List.cons_append, joinNl_cons (by simp)]
    have hne : '\n' :: joinNl (tl ++ [z]) ≠ [] := by simp
    rw [List.getLast?_append_of_ne_nil _ hne]
    have hne2 : joinNl (tl ++ [z]) ≠ [] := joinNl_ne_nil_of_last h
    calc ('\n' :: joinNl (tl ++ [z])).getLast?
        = (['\n'] ++ joinNl (tl ++ [z])).getLast? := rfl
      _ = (joinNl (tl ++ [z])).getLast? :=
          List.getLast?_append_of_ne_nil _ hne2
      _ = z.getLast? := ih

theorem pyStrip_trailing_nl {X : List Char} (hne : X ≠ [])
    (hh : ∀ c, X.head? = some c → pyIsSpace c = false)
    (hl : ∀ c, X.getLast? = some c → pyIsSpace c = false) :
    pyStrip (X ++ ['\n']) = X := by
  unfold pyStrip stripBoth
  have h1 : (X ++ ['\n']).dropWhile pyIsSpace = X ++ ['\n'] := by
    apply dropWhile_eq_self_of_head
    intro c hc
    rw [List.head?_append_of_ne_nil _ hne] at hc
    exact hh c hc
  rw [h1]
  have h2 : (X ++ ['\n']).reverse = '\n' :: X.reverse := by
    simp
  rw [h2]
  have h3 : List.dropWhile pyIsSpace ('\n' :: X.reverse) =
      List.dropWhile pyIsSpace X.reverse := by
    rw [List.dropWhile_cons_of_pos (by decide)]
  rw [h3]
  have h4 : List.dropWhile pyIsSpace X.reverse = X.reverse := by
    apply dropWhile_eq_self_of_head
    intro c hc
    rw [List.head?_reverse] at hc
    exact hl c hc
  rw [h4, List.reverse_reverse]

/-! ### The identifier grammar and the cleanup regex classes -/

theorem xmlNameStart_of_spec {c : Char} (h : specIdentStart c = true) :
    xmlNameStart c = true := by
  simp only [specIdentStart, Bool.or_eq_true, Bool.and_eq_true,
    decide_eq_true_eq, beq_iff_eq] at h
  simp only [xmlNameStart, Bool.or_eq_true, Bool.and_eq_true,
    decide_eq_true_eq, beq_iff_eq]
  omega

theorem xmlNameChar_of_spec {c : Char} (h : specIdentChar c = true) :
    xmlNameChar c = true := by
  simp only [specIdentChar, specIdentStart, Bool.or_eq_true, Bool.and_eq_true,
    decide_eq_true_eq, beq_iff_eq] at h
  simp only [xmlNameChar, xmlNameStart, Bool.or_eq_true, Bool.and_eq_true,
    decide_eq_true_eq, beq_iff_eq]
  omega

theorem grammar_shape {t : List Char} (h : matchesIdentGrammar t = true) :
    ∃ c t', t = c :: t' ∧ xmlNameStart c = true ∧
      t'.all xmlNameChar = true := by
  cases t with
  | nil => cases h
  | cons c t' =>
    simp only [matchesIdentGrammar, Bool.and_eq_true] at h
    refine ⟨c, t', rfl, xmlNameStart_of_spec h.1, ?_⟩
    rw [List.all_eq_true] at h ⊢
    exact fun x hx => xmlNameChar_of_spec (h.2 x hx)

theorem specIdentChar_ne_nl {c : Char} (h : specIdentChar c = true) :
    c ≠ '\n' := by
  intro hc
  rw [hc] at h
  cases h

theorem grammar_no_nl {t : List Char} (h : matchesIdentGrammar t = true) :
    '\n' ∉ t := by
  cases t with
  | nil => simp
  | cons c t' =>
    simp only [matchesIdentGrammar, Bool.and_eq_true] at h
    intro hm
    rcases List.mem_cons.mp hm with hc | hc
    · have hcc : specIdentChar c = true := by
        simp only [specIdentChar, Bool.or_eq_true]
        exact Or.inl (Or.inl h.1)
      exact specIdentChar_ne_nl hcc hc.symm
    · rw [List.all_eq_true] at h
      exact specIdentChar_ne_nl (h.2 _ hc) rfl

/-! ### Stepping lemmas for the self-closing-tag rewrite -/

theorem fixGo_cons_ne {fuel : Nat} {c : Char} {r : List Char} (h : c ≠ '<') :
    fixGo (fuel + 1) (c :: r) = c :: fixGo fuel r := by
  rw [fixGo.eq_def]
  split
  next heq => omega
  next heq => simp at heq
  next f r' heq =>
    rw [List.cons.injEq] at heq
    exact absurd heq.1 h
  next f c' r' hcon hno heq =>
    rw [List.cons.injEq] at heq
    obtain ⟨h1, h2⟩ := heq
    subst h1
    subst h2
    have hf : f = fuel := by omega
    rw [hf]

theorem fixGo_lt_none {fuel : Nat} {r : List Char}
    (h : selfCloseMatch r = none) :
    fixGo (fuel + 1) ('<' :: r) = '<' :: fixGo fuel r := by
  simp [fixGo, h]

theorem fixGo_lt_some {fuel : Nat} {r name tail : List Char}
    (h : selfCloseMatch r = some (name, tail)) :
    fixGo (fuel + 1) ('<' :: r) =
      '<' :: (name ++ '>' :: '<' :: '/' :: (name ++ '>' :: fixGo fuel tail)) := by
  simp [fixGo, h]

theorem fixGo_no_lt {s : List Char} (h : '<' ∉ s) :
    ∀ fuel, fixGo fuel s = s := by
  induction s with
  | nil => intro fuel; cases fuel <;> rfl
  | cons c r ih =>
    intro fuel
    cases fuel with
    | zero => rfl
    | succ f =>
      have hc : c ≠ '<' := fun hceq => h (hceq ▸ List.mem_cons_self _ _)
      rw [fixGo_cons_ne hc, ih (fun hm => h (List.mem_cons_of_mem _ hm))]

theorem fixGo_close (fuel : Nat) :
    fixGo fuel "</document>".toList = "</document>".toList := by
  cases fuel with
  | zero => rfl
  | succ f =>
    show fixGo (f + 1) ('<' :: "/document>".toList) = _
    rw [fixGo_lt_none (by decide), fixGo_no_lt (by decide)]
    rfl

theorem fixGo_append_no_lt {x : List Char} (hx : '<' ∉ x) :
    ∀ fuel r, fixGo (fuel + x.length) (x ++ r) = x ++ fixGo fuel r := by
  induction x with
  | nil => intro fuel r; rfl
  | cons c x' ih =>
    intro fuel r
    have hc : c ≠ '<' := fun hceq => hx (hceq ▸ List.mem_cons_self _ _)
    show fixGo (fuel + x'.length + 1) (c :: (x' ++ r)) = _
    rw [fixGo_cons_ne hc, ih (fun hm => hx (List.mem_cons_of_mem _ hm)) fuel r]
    rfl

theorem selfCloseMatch_hit {c : Char} {t' r : List Char}
    (hstart : xmlNameStart c = true) (hall : t'.all xmlNameChar = true) :
    selfCloseMatch (c :: (t' ++ '/' :: '>' :: r)) = some (c :: t', r) := by
  simp only [selfCloseMatch, if_pos hstart]
  rw [List.all_eq_true] at hall
  rw [List.dropWhile_append_of_pos hall,
    List.dropWhile_cons_of_neg (by decide),
    List.dropWhile_cons_of_neg (by decide),
    List.takeWhile_append_of_pos hall,
    List.takeWhile_cons_of_neg (by decide)]
  simp

theorem selfCloseMatch_doc_open (r : List Char) :
    selfCloseMatch ("document>\n".toList ++ r) = none := by
  show selfCloseMatch ('d' :: ("ocument".toList ++ '>' :: '\n' :: r)) = none
  simp only [selfCloseMatch, if_pos (by decide : xmlNameStart 'd' = true)]
  rw [List.dropWhile_append_of_pos (by decide),
    List.dropWhile_cons_of_neg (by decide),
    List.dropWhile_cons_of_neg (by decide)]
  rfl

theorem fixGo_doc_open (fuel : Nat) (r : List Char) :
    fixGo (fuel + 11) ("<document>\n".toList ++ r) =
      "<document>\n".toList ++ fixGo fuel r := by
  show fixGo (fuel + 10 + 1) ('<' :: ("document>\n".toList ++ r)) = _
  rw [fixGo_lt_none (selfCloseMatch_doc_open r)]
  have h10 : fuel + 10 = fuel + ("document>\n".toList).length := rfl
  rw [h10, fixGo_append_no_lt (by decide) fuel r]
  rfl

theorem fixGo_child {t : List Char} (h : matchesIdentGrammar t = true)
    (fuel : Nat) (r : List Char) :
    fixGo (fuel + 6) ("    <".toList ++ t ++ "/>".toList ++ '\n' :: r) =
      ("    <".toList ++ t ++ "></".toList ++ t ++ ">".toList) ++
        '\n' :: fixGo fuel r := by
  obtain ⟨c, t', rfl, hstart, hall⟩ := grammar_shape h
  have lhs_eq : "    <".toList ++ (c :: t') ++ "/>".toList ++ '\n' :: r =
      ' ' :: ' ' :: ' ' :: ' ' :: '<' :: c :: (t' ++ '/' :: '>' :: '\n' :: r) := by
    simp
  rw [lhs_eq, fixGo_cons_ne (c := ' ') (by decide),
    fixGo_cons_ne (c := ' ') (by decide), fixGo_cons_ne (c := ' ') (by decide),
    fixGo_cons_ne (c := ' ') (by decide),
    fixGo_lt_some (selfCloseMatch_hit hstart hall),
    fixGo_cons_ne (c := '\n') (by decide)]
  simp

/-- Total length of the raw children block, used to budget the rewrite
fuel: every child line spends six scan steps but occupies at least eight
characters. -/
theorem block_length_ge (tags : List (List Char)) :
    6 * tags.length ≤
      (tags.foldr (fun t acc => "    <".toList ++ t ++ "/>".toList ++
        '\n' :: acc) "</document>".toList).length := by
  induction tags with
  | nil => simp
  | cons t ts ih =>
    simp only [List.foldr_cons, List.length_cons, List.length_append]
    have h5 : ("    <".toList).length = 5 := rfl
    have h2 : ("/>".toList).length = 2 := rfl
    rw [h5, h2]
    simp only [List.length_cons] at ih
    omega

theorem fixGo_children (tags : List (List Char))
    (h : ∀ t ∈ tags, matchesIdentGrammar t = true) :
    ∀ fuel, fixGo (fuel + 6 * tags.length)
      (tags.foldr (fun t acc => "    <".toList ++ t ++ "/>".toList ++
        '\n' :: acc) "</document>".toList) =
      tags.foldr (fun t acc => ("    <".toList ++ t ++ "></".toList ++ t ++
        ">".toList) ++ '\n' :: acc) "</document>".toList := by
  induction tags with
  | nil => intro fuel; exact fixGo_close fuel
  | cons t ts ih =>
    intro fuel
    rw [List.foldr_cons, show fuel + 6 * (t :: ts).length =
      (fuel + 6 * ts.length) + 6 from by simp only [List.length_cons]; omega,
      fixGo_child (h t (List.mem_cons_self _ _)) (fuel + 6 * ts.length),
      ih (fun x hx => h x (List.mem_cons_of_mem _ hx)) fuel]
    rfl

/-- C4: for a non-empty list of tags each matching the identifier grammar,
`create_xml_document` returns exactly the `<document>` line, one
`    <tag></tag>` line per input tag (4-space indent, explicit open/close
pair, input order, duplicates kept), and the `</document>` line, joined by
newlines — no XML declaration, no leading or trailing blank lines. -/
theorem create_xml_document_lines (d : List Char) (tags : List (List Char))
    (hne : tags ≠ []) (hval : ∀ t ∈ tags, matchesIdentGrammar t = true) :
    create_xml_document d tags =
      joinNl ("<document>".toList ::
        (tags.map (fun t => "    <".toList ++ t ++ "></".toList ++ t ++
          ">".toList) ++ ["</document>".toList])) := by
  cases tags with
  | nil => exact absurd rfl hne
  | cons t0 ts =>
    have hnl : ∀ l ∈ toprettyxmlLines (t0 :: ts), '\n' ∉ l := by
      intro l hl
      simp only [toprettyxmlLines] at hl
      rcases List.mem_cons.mp hl with rfl | hl
      · decide
      rcases List.mem_cons.mp hl with rfl | hl
      · decide
      rcases List.mem_append.mp hl with hl | hl
      · rw [List.mem_map] at hl
        obtain ⟨t, ht, rfl⟩ := hl
        intro hm
        rcases List.mem_append.mp hm with hm | hm
        · rcases List.mem_append.mp hm with hm | hm
          · simp at hm
          · exact grammar_no_nl (hval t ht) hm
        · simp at hm
      · rw [List.mem_singleton] at hl
        subst hl
        decide
    have hsplit : splitLines (toprettyxml (t0 :: ts)) =
        toprettyxmlLines (t0 :: ts) ++ [[]] := by
      unfold toprettyxml
      exact splitLines_foldr hnl
    have hform : toprettyxmlLines (t0 :: ts) ++ [[]] =
        xmlDeclLine :: (("<document>".toList ::
          ((t0 :: ts).map (fun t => "    <".toList ++ t ++ "/>".toList) ++
            ["</document>".toList])) ++ [[]]) := rfl
    have hdecl : startsWithXmlDecl (toprettyxmlLines (t0 :: ts) ++ [[]]) =
        true := rfl
    simp only [create_xml_document, hsplit, hdecl, if_true]
    rw [hform]
    rw [List.drop_succ_cons, List.drop_zero]
    rw [joinNl_append_nil_single (by simp)]
    have hlast : (joinNl ("<document>".toList ::
        ((t0 :: ts).map (fun t => "    <".toList ++ t ++ "/>".toList) ++
          ["</document>".toList]))).getLast? = some '>' := by
      rw [show "<document>".toList ::
          ((t0 :: ts).map (fun t => "    <".toList ++ t ++ "/>".toList) ++
            ["</document>".toList]) =
        ("<document>".toList ::
          (t0 :: ts).map (fun t => "    <".toList ++ t ++ "/>".toList)) ++
          ["</document>".toList] from by simp]
      rw [joinNl_getLast (by decide)]
      rfl
    rw [joinNl_eq_foldr, List.foldr_map]
    rw [pyStrip_trailing_nl (by simp) ?hh ?hl]
    case hh =>
      intro c hc
      rw [List.head?_append_of_ne_nil _ (by decide)] at hc
      cases hc
      decide
    case hl =>
      rw [joinNl_eq_foldr, List.foldr_map] at hlast
      intro c hc
      rw [hlast] at hc
      cases hc
      decide
    unfold fixSelfClosing
    rw [show "<document>".toList ++ '\n' ::
        (t0 :: ts).foldr (fun t acc =>
          ("    <".toList ++ t ++ "/>".toList) ++ '\n' :: acc)
          "</document>".toList =
      "<document>\n".toList ++
        (t0 :: ts).foldr (fun t acc =>
          ("    <".toList ++ t ++ "/>".toList) ++ '\n' :: acc)
          "</document>".toList from rfl]
    rw [List.length_append]
    rw [show ("<document>\n".toList).length +
        ((t0 :: ts).foldr (fun t acc =>
          ("    <".toList ++ t ++ "/>".toList) ++ '\n' :: acc)
          "</document>".toList).length =
      ((t0 :: ts).foldr (fun t acc =>
          ("    <".toList ++ t ++ "/>".toList) ++ '\n' :: acc)
          "</document>".toList).length + 11 from by
        have : ("<document>\n".toList).length = 11 := rfl
        omega]
    rw [fixGo_doc_open]
    rw [show ((t0 :: ts).foldr (fun t acc =>
          ("    <".toList ++ t ++ "/>".toList) ++ '\n' :: acc)
          "</document>".toList).length =
      (((t0 :: ts).foldr (fun t acc =>
          ("    <".toList ++ t ++ "/>".toList) ++ '\n' :: acc)
          "</document>".toList).length - 6 * (t0 :: ts).length) +
        6 * (t0 :: ts).length from by
        have := block_length_ge (t0 :: ts)
        omega]
    rw [fixGo_children (t0 :: ts) hval]
    rw [joinNl_eq_foldr, List.foldr_map]
    rfl

/-- Witness for C4 at a concrete tag list (with a duplicate kept). -/
theorem create_xml_document_lines_witness :
    create_xml_document "doc".toList ["a".toList, "b-c".toList, "a".toList] =
      joinNl ("<document>".toList ::
        (["a".toList, "b-c".toList, "a".toList].map
          (fun t => "    <".toList ++ t ++ "></".toList ++ t ++ ">".toList) ++
          ["</document>".toList])) := by
  have h := create_xml_document_lines "doc".toList
    ["a".toList, "b-c".toList, "a".toList] (by decide) (by decide)
  exact h

/-! ### Behaviour of the primary pattern on a single bullet line -/

theorem nonNlRunLen_eq_length {x : List Char} (h : '\n' ∉ x) :
    nonNlRunLen x = x.length := by
  unfold nonNlRunLen
  congr 1
  induction x with
  | nil => rfl
  | cons c r ih =>
    have hc : ¬(c == '\n') = true := by
      simp only [beq_iff_eq]
      exact fun hceq => h (hceq ▸ List.mem_cons_self _ _)
    rw [List.takeWhile_cons_of_pos (by simpa using hc)]
    rw [ih (fun hm => h (List.mem_cons_of_mem _ hm))]

theorem wsRunLen_lt {x : List Char} (hne : x ≠ [])
    (hl : ∀ e, x.getLast? = some e → pyIsSpace e = false) :
    wsRunLen x < x.length := by
  induction x with
  | nil => exact absurd rfl hne
  | cons c r ih =>
    unfold wsRunLen
    cases r with
    | nil =>
      have := hl c rfl
      rw [List.takeWhile_cons_of_neg (by simpa using this)]
      simp
    | cons rh rt =>
      by_cases hc : pyIsSpace c = true
      · rw [List.takeWhile_cons_of_pos hc]
        have := ih (by simp)
          (fun e he => hl e (by rw [← he]; rfl))
        unfold wsRunLen at this
        simp only [List.length_cons] at this ⊢
        omega
      · rw [List.takeWhile_cons_of_neg hc]
        simp

theorem tryWsDollar_none {x : List Char} (hnl : '\n' ∉ x) :
    ∀ m, m < x.length → tryWsDollar x m = none := by
  intro m
  induction m with
  | zero =>
    intro hm
    unfold tryWsDollar
    cases x with
    | nil => simp at hm
    | cons c r =>
      have hc : ¬(c == '\n') = true := by
        simp only [beq_iff_eq]
        exact fun hceq => hnl (hceq ▸ List.mem_cons_self _ _)
      simp only [dollarAt]
      rw [if_neg hc]
  | succ m ih =>
    intro hm
    unfold tryWsDollar
    have hne : x.drop (m + 1) ≠ [] := by
      intro hd
      have := congrArg List.length hd
      simp only [List.length_drop, List.length_nil] at this
      omega
    cases hd : x.drop (m + 1) with
    | nil => exact absurd hd hne
    | cons c r =>
      have hcm : c ∈ x := by
        have : c ∈ x.drop (m + 1) := by rw [hd]; exact List.mem_cons_self _ _
        exact List.drop_subset _ _ this
      have hc : ¬(c == '\n') = true := by
        simp only [beq_iff_eq]
        exact fun hceq => hnl (hceq ▸ hcm)
      simp only [hd, dollarAt]
      rw [if_neg hc]
      exact ih (by omega)

theorem tryOpt_none {x : List Char} (hne : x ≠ []) (hnl : '\n' ∉ x)
    (hl : ∀ e, x.getLast? = some e → pyIsSpace e = false)
    (hp : ∀ c, x.head? = some c → isSemiDot c = true → 2 ≤ x.length) :
    tryOpt x = none := by
  cases x with
  | nil => exact absurd rfl hne
  | cons c rest =>
    have hcnl : ¬(c == '\n') = true := by
      simp only [beq_iff_eq]
      exact fun hceq => hnl (hceq ▸ List.mem_cons_self _ _)
    unfold tryOpt
    have hdol : dollarAt (c :: rest) = false := by
      simp only [dollarAt]
      simpa using hcnl
    cases hsd : isSemiDot c with
    | false =>
      simp only [hsd, Bool.false_eq_true, if_false, hdol]
    | true =>
      have hlen := hp c rfl hsd
      have hrne : rest ≠ [] := by
        intro hr
        rw [hr] at hlen
        simp at hlen
      have hrl : ∀ e, rest.getLast? = some e → pyIsSpace e = false := by
        intro e he
        apply hl
        rw [show c :: rest = [c] ++ rest from rfl,
          List.getLast?_append_of_ne_nil _ hrne]
        exact he
      have hws := tryWsDollar_none
        (fun hm => hnl (List.mem_cons_of_mem _ hm))
        (wsRunLen rest) (wsRunLen_lt hrne hrl)
      simp only [hsd, if_true, hws, Option.map_none, hdol]
      rfl

theorem tryDotGo_skip {r : List Char} :
    ∀ (a : Nat) (k b : Nat),
      (∀ j, k ≤ j → j < k + a → tryOpt (r.drop j) = none) →
      tryDotGo r k (a + b) = tryDotGo r (k + a) b := by
  intro a
  induction a with
  | zero =>
    intro k b _
    rw [Nat.zero_add, Nat.add_zero]
  | succ a ih =>
    intro k b h
    rw [Nat.succ_add]
    have hstep : tryDotGo r k (a + b + 1) = tryDotGo r (k + 1) (a + b) := by
      show (match tryOpt (r.drop k) with
            | some m => some (k, m)
            | none => tryDotGo r (k + 1) (a + b)) = _
      rw [h k (Nat.le_refl k) (by omega)]
    rw [hstep, ih (k + 1) b (fun j h1 h2 => h j (by omega) (by omega))]
    have harith : k + 1 + a = k + (a + 1) := by omega
    rw [harith]

theorem tryDotGo_hit {r : List Char} {k m b : Nat}
    (h : tryOpt (r.drop k) = some m) (hb : 1 ≤ b) :
    tryDotGo r k b = some (k, m) := by
  cases b with
  | zero => omega
  | succ b' =>
    unfold tryDotGo
    rw [h]

theorem drop_ne_nil_of_lt {x : List Char} {j : Nat} (h : j < x.length) :
    x.drop j ≠ [] := by
  intro hd
  have := congrArg List.length hd
  simp only [List.length_drop, List.length_nil] at this
  omega

theorem getLast?_drop_of_lt {x : List Char} {j : Nat} (h : j < x.length) :
    (x.drop j).getLast? = x.getLast? := by
  conv_rhs => rw [← List.take_append_drop j x]
  rw [List.getLast?_append_of_ne_nil _ (drop_ne_nil_of_lt h)]

theorem head?_drop_last {x : List Char} (hne : x ≠ []) :
    (x.drop (x.length - 1)).head? = x.getLast? := by
  have hlt : x.length - 1 < x.length := by
    cases x with
    | nil => exact absurd rfl hne
    | cons a l => simp
  have hlen : (x.drop (x.length - 1)).length = 1 := by
    rw [List.length_drop]
    omega
  obtain ⟨e, he⟩ := List.length_eq_one.mp hlen
  have hg := getLast?_drop_of_lt hlt
  rw [he] at hg ⊢
  simpa using hg

theorem tryOpt_none_drop {x : List Char} {j : Nat} (hnl : '\n' ∉ x)
    (hl : ∀ e, x.getLast? = some e → pyIsSpace e = false)
    (hj : j < x.length)
    (hp : ∀ c, (x.drop j).head? = some c → isSemiDot c = true →
      2 ≤ x.length - j) :
    tryOpt (x.drop j) = none := by
  apply tryOpt_none (drop_ne_nil_of_lt hj)
  · intro hm
    exact hnl (List.drop_subset _ _ hm)
  · intro e he
    rw [getLast?_drop_of_lt hj] at he
    exact hl e he
  · intro c hc hsd
    have := hp c hc hsd
    rw [List.length_drop]
    exact this

theorem tryOpt_nil : tryOpt [] = some 0 := rfl

theorem tryOpt_semi : tryOpt [';'] = some 1 := rfl

/-- The single anchored match on a bullet line `- <label><;;;...>`: the lazy
capture extends to the position where only the final `;` (if any) remains,
the optional group then consumes that final `;`, and the whole line is
consumed.  The capture is the label plus all but the last punctuation
character. -/
theorem tryMatch_bullet (label : List Char) (n : Nat)
    (h1 : label ≠ []) (h2 : '\n' ∉ label)
    (h3 : ∀ c, label.head? = some c → pyIsSpace c = false)
    (h4 : ∀ c, label.getLast? = some c →
      pyIsSpace c = false ∧ isSemiDot c = false) :
    tryMatch ('-' :: ' ' :: (label ++ List.replicate n ';')) =
      some (label ++ List.replicate (n - 1) ';', 2 + label.length + n) := by
  obtain ⟨c0, label', rfl⟩ := List.exists_cons_of_ne_nil h1
  have hbnl : '\n' ∉ (c0 :: label') ++ List.replicate n ';' := by
    intro hm
    rcases List.mem_append.mp hm with hm | hm
    · exact h2 hm
    · rw [List.mem_replicate] at hm
      cases hm.2
  have hblen : ((c0 :: label') ++ List.replicate n ';').length =
      (c0 :: label').length + n := by
    simp only [List.cons_append, List.length_append, List.length_cons,
      List.length_replicate]
    omega
  have hws1 : wsRunLen (' ' :: ((c0 :: label') ++ List.replicate n ';')) = 1 := by
    unfold wsRunLen
    rw [List.takeWhile_cons_of_pos (by decide), List.cons_append,
      List.takeWhile_cons_of_neg (by simpa using h3 c0 rfl)]
    rfl
  have hnonnl : nonNlRunLen ((c0 :: label') ++ List.replicate n ';') =
      (c0 :: label').length + n := by
    rw [nonNlRunLen_eq_length hbnl, hblen]
  have hlastws : ∀ e, ((c0 :: label') ++ List.replicate n ';').getLast? =
      some e → pyIsSpace e = false := by
    intro e he
    cases n with
    | zero =>
      rw [List.replicate_zero, List.append_nil] at he
      exact (h4 e he).1
    | succ n' =>
      rw [List.getLast?_append_of_ne_nil _ (by simp),
        List.getLast?_replicate] at he
      simp only [Nat.succ_ne_zero, if_false, Option.some.injEq] at he
      subst he
      rfl
  cases n with
  | zero =>
    simp only [Nat.zero_sub, List.replicate_zero, List.append_nil] at hbnl hblen hws1 hnonnl hlastws ⊢
    have hskip : ∀ j, 1 ≤ j → j < 1 + ((c0 :: label').length - 1) →
        tryOpt ((c0 :: label').drop j) = none := by
      intro j hj1 hj2
      apply tryOpt_none_drop hbnl (fun e he => (h4 e he).1) (by omega)
      intro c hc hsd
      by_cases hj3 : 2 ≤ (c0 :: label').length - j
      · exact hj3
      · have hj4 : j = (c0 :: label').length - 1 := by omega
        rw [hj4, head?_drop_last (by simp)] at hc
        rw [(h4 c hc).2] at hsd
        cases hsd
    have hhit : tryOpt ((c0 :: label').drop (c0 :: label').length) = some 0 := by
      rw [List.drop_eq_nil_of_le (Nat.le_refl _)]
      exact tryOpt_nil
    have hdot : tryDotGo (c0 :: label') 1 (c0 :: label').length =
        some ((c0 :: label').length, 0) := by
      conv_lhs => rw [show (c0 :: label').length =
        ((c0 :: label').length - 1) + 1 from by
          simp only [List.length_cons]; omega]
      rw [tryDotGo_skip ((c0 :: label').length - 1) 1 1 hskip]
      rw [show 1 + ((c0 :: label').length - 1) = (c0 :: label').length from by
        simp only [List.length_cons]; omega]
      exact tryDotGo_hit hhit (Nat.le_refl 1)
    have htryws : tryWs (' ' :: (c0 :: label')) 1 =
        some (1, (c0 :: label').length, 0) := by
      show (match tryDotGo (c0 :: label') 1 (nonNlRunLen (c0 :: label')) with
            | some (k, m) => some (1, k, m)
            | none => tryWs (' ' :: (c0 :: label')) 0) = _
      rw [hnonnl, show (c0 :: label').length + 0 = (c0 :: label').length from
        rfl, hdot]
    show (if isMarker '-' = true then
            match tryWs (' ' :: (c0 :: label'))
                (wsRunLen (' ' :: (c0 :: label'))) with
            | some (l, k, m) =>
              some (((' ' :: (c0 :: label')).drop l).take k, 1 + l + k + m)
            | none => none
          else none) = _
    rw [if_pos (by decide), hws1, htryws]
    show some ((c0 :: label').take (c0 :: label').length, _) = _
    rw [List.take_length]
  | succ n' =>
    have hskip : ∀ j, 1 ≤ j → j < 1 + ((c0 :: label').length + n' - 1) →
        tryOpt (((c0 :: label') ++ List.replicate (n' + 1) ';').drop j) =
          none := by
      intro j hj1 hj2
      apply tryOpt_none_drop hbnl hlastws (by rw [hblen]; omega)
      intro c hc hsd
      rw [hblen]
      omega
    have hhit : tryOpt (((c0 :: label') ++ List.replicate (n' + 1) ';').drop
        ((c0 :: label').length + n')) = some 1 := by
      rw [List.drop_append, List.drop_replicate,
        show n' + 1 - n' = 1 from by omega]
      exact tryOpt_semi
    have hdot : tryDotGo ((c0 :: label') ++ List.replicate (n' + 1) ';') 1
        ((c0 :: label').length + (n' + 1)) =
        some ((c0 :: label').length + n', 1) := by
      conv_lhs => rw [show (c0 :: label').length + (n' + 1) =
        ((c0 :: label').length + n' - 1) + 2 from by
          simp only [List.length_cons]; omega]
      rw [tryDotGo_skip ((c0 :: label').length + n' - 1) 1 2 hskip]
      rw [show 1 + ((c0 :: label').length + n' - 1) =
        (c0 :: label').length + n' from by
          simp only [List.length_cons]; omega]
      exact tryDotGo_hit hhit (by omega)
    have htryws : tryWs (' ' :: ((c0 :: label') ++
        List.replicate (n' + 1) ';')) 1 =
        some (1, (c0 :: label').length + n', 1) := by
      show (match tryDotGo ((c0 :: label') ++ List.replicate (n' + 1) ';') 1
              (nonNlRunLen ((c0 :: label') ++ List.replicate (n' + 1) ';')) with
            | some (k, m) => some (1, k, m)
            | none => tryWs (' ' :: ((c0 :: label') ++
                List.replicate (n' + 1) ';')) 0) = _
      rw [hnonnl, hdot]
    show (if isMarker '-' = true then
            match tryWs (' ' :: ((c0 :: label') ++
                List.replicate (n' + 1) ';'))
              (wsRunLen (' ' :: ((c0 :: label') ++
                List.replicate (n' + 1) ';'))) with
            | some (l, k, m) =>
              some (((' ' :: ((c0 :: label') ++
                List.replicate (n' + 1) ';')).drop l).take k, 1 + l + k + m)
            | none => none
          else none) = _
    rw [if_pos (by decide), hws1, htryws]
    show some (((c0 :: label') ++ List.replicate (n' + 1) ';').take
        ((c0 :: label').length + n'), _) = _
    rw [List.take_append, List.take_replicate,
      show min n' (n' + 1) = n' from by omega,
      show n' + 1 - 1 = n' from by omega,
      show 1 + 1 + ((c0 :: label').length + n') + 1 =
        2 + (c0 :: label').length + (n' + 1) from by omega]

theorem splitLines_no_nl {x : List Char} (h : '\n' ∉ x) :
    splitLines x = [x] := by
  induction x with
  | nil => rfl
  | cons c r ih =>
    have hc : c ≠ '\n' := fun hceq => h (hceq ▸ List.mem_cons_self _ _)
    simp only [splitLines, if_neg hc,
      ih (fun hm => h (List.mem_cons_of_mem _ hm))]

theorem pyStrip_ne_nil_of_mem {x : List Char} {c : Char} (hc : c ∈ x)
    (hw : pyIsSpace c = false) : pyStrip x ≠ [] := by
  unfold pyStrip stripBoth
  intro h
  rw [List.reverse_eq_nil_iff, List.dropWhile_eq_nil_iff] at h
  have hcd : c ∈ x.dropWhile pyIsSpace := by
    have hsplit : c ∈ x.takeWhile pyIsSpace ++ x.dropWhile pyIsSpace := by
      rw [List.takeWhile_append_dropWhile]
      exact hc
    rcases List.mem_append.mp hsplit with h1 | h2
    · have := List.mem_takeWhile_imp h1
      rw [hw] at this
      cases this
    · exact h2
  have := h c (List.mem_reverse.mpr hcd)
  rw [hw] at this
  cases this

theorem strip_label_rep {label : List Char} (k : Nat) (h1 : label ≠ [])
    (h3 : ∀ c, label.head? = some c → pyIsSpace c = false)
    (h4 : ∀ c, label.getLast? = some c →
      pyIsSpace c = false ∧ isSemiDot c = false) :
    pyStrip (label ++ List.replicate k ';') =
      label ++ List.replicate k ';' := by
  apply stripBoth_eq_self
  · intro c hc
    rw [List.head?_append_of_ne_nil _ h1] at hc
    exact h3 c hc
  · intro c hc
    cases k with
    | zero =>
      rw [List.replicate_zero, List.append_nil] at hc
      exact (h4 c hc).1
    | succ k' =>
      rw [List.getLast?_append_of_ne_nil _ (by simp),
        List.getLast?_replicate] at hc
      simp only [Nat.succ_ne_zero, if_false, Option.some.injEq] at hc
      subst hc
      rfl

theorem all_space_false_of_getLast {x : List Char} (hne : x ≠ [])
    (hl : ∀ e, x.getLast? = some e → pyIsSpace e = false) :
    x.all pyIsSpace = false := by
  cases hall : x.all pyIsSpace with
  | false => rfl
  | true =>
    rw [List.all_eq_true] at hall
    obtain ⟨e, he⟩ : ∃ e, x.getLast? = some e := by
      cases x with
      | nil => exact absurd rfl hne
      | cons a l => simp [List.getLast?_eq_getLast]
    have hm : e ∈ x := List.mem_of_mem_getLast? (Option.mem_def.mpr he)
    have := hall e hm
    rw [hl e he] at this
    cases this

theorem sub_no_trigger {l : List Char} (hne : l ≠ [])
    (hl : ∀ e, l.getLast? = some e →
      pyIsSpace e = false ∧ isSemiDot e = false) :
    subSemiDotEnd l = l := by
  induction l with
  | nil => exact absurd rfl hne
  | cons c rest ih =>
    cases hr : rest with
    | nil =>
      subst hr
      have := (hl c rfl).2
      simp only [subSemiDotEnd, this]
      rfl
    | cons rh rt =>
      have hrne : rest ≠ [] := by rw [hr]; simp
      have hrl : ∀ e, rest.getLast? = some e →
          pyIsSpace e = false ∧ isSemiDot e = false := by
        intro e he
        apply hl
        rw [show c :: rest = [c] ++ rest from rfl,
          List.getLast?_append_of_ne_nil _ hrne]
        exact he
      have hall : rest.all pyIsSpace = false :=
        all_space_false_of_getLast hrne (fun e he => (hrl e he).1)
      rw [← hr]
      simp only [subSemiDotEnd, hall, Bool.and_false, Bool.false_eq_true,
        if_false]
      rw [ih hrne hrl]
  
theorem sub_replicate (k : Nat) :
    subSemiDotEnd (List.replicate (k + 1) ';') = List.replicate k ';' := by
  induction k with
  | zero => rfl
  | succ k' ih =>
    have hall : (List.replicate (k' + 1) ';').all pyIsSpace = false := by
      rw [List.replicate_succ]
      simp [pyIsSpace]
    rw [List.replicate_succ]
    show (if (isSemiDot ';' && (List.replicate (k' + 1) ';').all pyIsSpace)
            = true then []
          else ';' :: subSemiDotEnd (List.replicate (k' + 1) ';')) = _
    rw [hall, Bool.and_false]
    simp only [Bool.false_eq_true, if_false]
    rw [ih, ← List.replicate_succ]

theorem sub_append_replicate (label : List Char) (k : Nat) :
    subSemiDotEnd (label ++ List.replicate (k + 1) ';') =
      label ++ List.replicate k ';' := by
  induction label with
  | nil =>
    simpa using sub_replicate k
  | cons c rest ih =>
    rw [List.cons_append]
    have hm : (';' : Char) ∈ rest ++ List.replicate (k + 1) ';' := by
      apply List.mem_append_right
      rw [List.mem_replicate]
      exact ⟨Nat.succ_ne_zero k, rfl⟩
    have hall : (rest ++ List.replicate (k + 1) ';').all pyIsSpace = false := by
      cases ha : (rest ++ List.replicate (k + 1) ';').all pyIsSpace with
      | false => rfl
      | true =>
        rw [List.all_eq_true] at ha
        have := ha _ hm
        cases this
    simp only [subSemiDotEnd, hall, Bool.and_false, Bool.false_eq_true,
      if_false]
    rw [ih, List.cons_append]

theorem findallGo_nil_input (b : Bool) (fuel : Nat) :
    findallGo [] b fuel = [] := by
  cases fuel <;> rfl

theorem findallGo_not_marker {c : Char} {rest : List Char} {fuel : Nat}
    (h : isMarker c = false) :
    findallGo (c :: rest) true (fuel + 1) = findallGo rest (c == '\n') fuel := by
  have hm : tryMatch (c :: rest) = none := by simp [tryMatch, h]
  simp [findallGo, hm]

theorem findallGo_skip_char {c : Char} {rest : List Char} {fuel : Nat} :
    findallGo (c :: rest) false (fuel + 1) =
      findallGo rest (c == '\n') fuel := rfl

theorem findallGo_hit {s cap : List Char} {n fuel : Nat}
    (hs : tryMatch s = some (cap, n)) (hne : s ≠ []) :
    findallGo s true (fuel + 1) =
      cap :: findallGo (s.drop n) (endsAtLineStart s n) fuel := by
  cases s with
  | nil => exact absurd rfl hne
  | cons c rest => simp [findallGo, hs]

theorem findall_bullet (label : List Char) (n : Nat)
    (h1 : label ≠ []) (h2 : '\n' ∉ label)
    (h3 : ∀ c, label.head? = some c → pyIsSpace c = false)
    (h4 : ∀ c, label.getLast? = some c →
      pyIsSpace c = false ∧ isSemiDot c = false) :
    findallParams ('T' :: '\n' :: '-' :: ' ' ::
        (label ++ List.replicate n ';')) =
      [label ++ List.replicate (n - 1) ';'] := by
  unfold findallParams
  rw [show ('T' :: '\n' :: '-' :: ' ' ::
      (label ++ List.replicate n ';')).length + 1 =
    ((('\n' :: '-' :: ' ' :: (label ++ List.replicate n ';')).length + 1) + 1)
    from rfl]
  rw [findallGo_not_marker (by decide),
    show ('T' == '\n') = false from by decide]
  rw [show ('\n' :: '-' :: ' ' :: (label ++ List.replicate n ';')).length + 1 =
    ((('-' :: ' ' :: (label ++ List.replicate n ';')).length) + 1) + 1
    from rfl]
  rw [findallGo_skip_char, show ('\n' == '\n') = true from rfl]
  rw [show ('-' :: ' ' :: (label ++ List.replicate n ';')).length + 1 =
    ((' ' :: (label ++ List.replicate n ';')).length + 1) + 1 from rfl]
  rw [findallGo_hit (tryMatch_bullet label n h1 h2 h3 h4) (by simp)]
  rw [show ('-' :: ' ' :: (label ++ List.replicate n ';')).drop
      (2 + label.length + n) = [] from List.drop_eq_nil_of_le (by
    simp only [List.length_cons, List.length_append, List.length_replicate]
    omega)]
  rw [findallGo_nil_input]

theorem primaryParams_bullet (label : List Char) (n : Nat)
    (h1 : label ≠ []) (h2 : '\n' ∉ label)
    (h3 : ∀ c, label.head? = some c → pyIsSpace c = false)
    (h4 : ∀ c, label.getLast? = some c →
      pyIsSpace c = false ∧ isSemiDot c = false) :
    primaryParams ('T' :: '\n' :: '-' :: ' ' ::
        (label ++ List.replicate n ';')) =
      [label ++ List.replicate (n - 2) ';'] := by
  unfold primaryParams
  rw [findall_bullet label n h1 h2 h3 h4]
  rw [List.filterMap_cons, List.filterMap_nil]
  rw [strip_label_rep (n - 1) h1 h3 h4]
  have hsub : subSemiDotEnd (label ++ List.replicate (n - 1) ';') =
      label ++ List.replicate (n - 2) ';' := by
    cases hn : n - 1 with
    | zero =>
      rw [show n - 2 = 0 from by omega]
      rw [List.replicate_zero, List.append_nil]
      exact sub_no_trigger h1 h4
    | succ k =>
      rw [show n - 2 = k from by omega]
      exact sub_append_replicate label k
  rw [hsub, strip_label_rep (n - 2) h1 h3 h4]
  rw [if_neg (by simp [h1])]

/-- C7 amended: a bullet line `- <label>` followed by a run of `n` trailing
semicolons keeps the label with the last `min n 2` semicolons removed: the
pattern's optional group eats one, the post-processing `re.sub` removes at
most one more, and any longer run survives in the stored parameter.  (The
claim as stated — the entire trailing run is stripped — holds only for runs
of length at most two.)  The label may not be empty, contain a newline, start
or end with whitespace, or end with `;`/`.`. -/
theorem primary_trailing_run_amended (label : List Char) (n : Nat)
    (h1 : label ≠ []) (h2 : '\n' ∉ label)
    (h3 : ∀ c, label.head? = some c → pyIsSpace c = false)
    (h4 : ∀ c, label.getLast? = some c →
      pyIsSpace c = false ∧ isSemiDot c = false) :
    parse_txt_file ("T\n- ".toList ++ (label ++ List.replicate n ';')) =
      .ok ("T".toList, [label ++ List.replicate (n - 2) ';']) := by
  have hbnl : '\n' ∉ '-' :: ' ' :: (label ++ List.replicate n ';') := by
    intro hm
    rcases List.mem_cons.mp hm with hc | hm
    · cases hc
    rcases List.mem_cons.mp hm with hc | hm
    · cases hc
    rcases List.mem_append.mp hm with hm | hm
    · exact h2 hm
    · rw [List.mem_replicate] at hm
      cases hm.2
  have hrest2 : splitLines ('-' :: ' ' :: (label ++ List.replicate n ';')) =
      [('-' :: ' ' :: (label ++ List.replicate n ';'))] :=
    splitLines_no_nl hbnl
  have e1 : splitLines ('\n' :: '-' :: ' ' :: (label ++ List.replicate n ';')) =
      [] :: splitLines ('-' :: ' ' :: (label ++ List.replicate n ';')) := rfl
  have hsl : splitLines ('T' :: '\n' :: '-' :: ' ' ::
      (label ++ List.replicate n ';')) =
      [['T'], '-' :: ' ' :: (label ++ List.replicate n ';')] := by
    show (if ('T' : Char) = '\n' then
            [] :: splitLines ('\n' :: '-' :: ' ' ::
              (label ++ List.replicate n ';'))
          else
            match splitLines ('\n' :: '-' :: ' ' ::
                (label ++ List.replicate n ';')) with
            | [] => [['T']]
            | l :: ls => ('T' :: l) :: ls) = _
    rw [if_neg (by decide), e1, hrest2]
  have hft : findTitle [['T'], '-' :: ' ' :: (label ++ List.replicate n ';')] =
      some ['T'] := by
    show (if pyStrip ['T'] ≠ [] ∧ ¬ isBulletPrefix (pyStrip ['T']) = true then
            some (pyStrip ['T'])
          else findTitle ['-' :: ' ' :: (label ++ List.replicate n ';')]) = _
    rw [if_pos ⟨by decide, by decide⟩]
    rfl
  show parse_txt_file ('T' :: '\n' :: '-' :: ' ' ::
    (label ++ List.replicate n ';')) = _
  simp only [parse_txt_file]
  rw [if_neg (pyStrip_ne_nil_of_mem (List.mem_cons_self _ _)
    (by decide : pyIsSpace 'T' = false))]
  rw [hsl, hft, primaryParams_bullet label n h1 h2 h3 h4]
  rw [if_neg (by simp)]
  rfl

/-- Witness for the amended C7: a run of four semicolons loses exactly its
last two. -/
theorem primary_trailing_run_amended_witness :
    parse_txt_file "T\n- ab;;;;".toList =
      .ok ("T".toList, ["ab;;".toList]) := by
  have h := primary_trailing_run_amended "ab".toList 4 (by decide) (by decide)
    (by intro c hc; cases hc; rfl)
    (by intro c hc; cases hc; exact ⟨rfl, rfl⟩)
  simpa using h

/-! ## Claim theorems, part 1 -/

/-- Counterexample to C3 as stated: the claim's clause "every other
character — punctuation, symbols, emoji, and characters of other
(non-Cyrillic) scripts — is replaced with a single underscore" fails for
alphanumeric characters of other scripts.  The Greek letter `'α'` (U+03B1)
and the superscript digit `'²'` (U+00B2) are not keys of the table, yet
Python's `str.isalnum` accepts them, so `transliterate` passes them through
unchanged instead of replacing them with `'_'`. -/
theorem transliterate_other_script_counterexample :
    translitLookup 'α' = none ∧ transliterate ['α'] = ['α'] ∧
    transliterate ['α'] ≠ ['_'] ∧
    translitLookup '²' = none ∧ transliterate ['²'] = ['²'] := by
  refine ⟨by decide, by decide, by decide, by decide, by decide⟩

set_option linter.unusedVariables false in
/-- C3 amended: for a character that is not a key of the Cyrillic table, the
transliteration step passes it through unchanged exactly when Python's
`str.isalnum` accepts it or it is an underscore, hyphen or space, and
replaces it with a single underscore otherwise, independently of its
surroundings.  "Other scripts" in the claim is wrong for alphanumeric
characters of other scripts (Greek letters, superscript digits, …), which
pass through.  The character is restricted to `alnumModelled`, the
repertoire on which the embedded classifier agrees with CPython pointwise. -/
theorem transliterate_unmapped_char_amended (s t : List Char) (c : Char)
    (h : translitLookup c = none) (hm : alnumModelled c = true) :
    transliterate (s ++ c :: t) =
      transliterate s ++
        (if pyIsAlnum c || c == '_' || c == '-' || c == ' ' then [c] else ['_']) ++
        transliterate t := by
  rw [transliterate_append]
  simp [transliterate, translitOne, h]

/-- Witness for the amended C3 at the concrete unmapped character `'α'`
(which passes through) embedded between `"ab"` and `"cd"`. -/
theorem transliterate_unmapped_char_amended_witness :
    transliterate ("ab".toList ++ 'α' :: "cd".toList) =
      "ab".toList ++ ['α'] ++ "cd".toList := by
  have h := transliterate_unmapped_char_amended "ab".toList "cd".toList 'α'
    (by decide) (by decide)
  simpa using h

/-- C8: the XML output does not depend on the document name; the
`document_name` argument is never embedded in the output string. -/
theorem create_xml_document_ignores_name (d1 d2 : List Char)
    (tags : List (List Char)) :
    create_xml_document d1 tags = create_xml_document d2 tags := rfl

/-- C1: scenario A end to end.  Parsing the input yields title `Отчет` and
the raw labels `ФИО` and `Дата рождения`; the `none` splitting and
`translit` translation strategies turn them into the tags `fio` and
`data_rozhdeniya`; and the XML built from them is exactly the four expected
lines joined by newlines. -/
theorem scenarioA_end_to_end :
    parse_txt_file "Отчет\n- ФИО;\n- Дата рождения.\n".toList =
      .ok ("Отчет".toList, ["ФИО".toList, "Дата рождения".toList]) ∧
    processParameters ["ФИО".toList, "Дата рождения".toList]
        "translit".toList "none".toList =
      .ok ["fio".toList, "data_rozhdeniya".toList] ∧
    create_xml_document "Отчет".toList ["fio".toList, "data_rozhdeniya".toList] =
      ("<document>\n    <fio></fio>\n    <data_rozhdeniya></data_rozhdeniya>" ++
        "\n</document>").toList := by
  refine ⟨by decide, by decide, by decide⟩

/-- Counterexample to C2 as stated: on the input `";"` the normalizer
returns the empty string, which does not match `[A-Za-z_][A-Za-z0-9_-]*`;
on `"123"` it returns `"123"`, which starts with a digit and does not match
either.  So not every output matches the spec's identifier grammar. -/
theorem normalize_grammar_counterexample :
    normalize_parameter_name ";".toList = [] ∧
    matchesIdentGrammar [] = false ∧
    normalize_parameter_name "123".toList = "123".toList ∧
    matchesIdentGrammar "123".toList = false := by
  refine ⟨by decide, rfl, by decide, by decide⟩

/-- Counterexample to C7 as stated: for the bullet line `- abc;;;` the
primary pattern captures `abc;;` and the post-processing removes only one
more trailing punctuation character, so the stored parameter is `abc;` —
the trailing run of three is not fully stripped. -/
theorem primary_trailing_run_counterexample :
    parse_txt_file "Title\n- abc;;;".toList =
      .ok ("Title".toList, ["abc;".toList]) ∧
    parse_txt_file "Title\n- abc;;;".toList ≠
      .ok ("Title".toList, ["abc".toList]) := by
  refine ⟨by decide, by decide⟩

/-- Counterexample to C10 as stated: in `"Title\n- .\n  - x"` the line
`- .` is a bullet-marker line starting at column 0, yet the indented bullet
label `x` is NOT dropped: the primary pattern's only capture (`.`) is
discarded as empty after stripping, so the fallback runs and returns `x`. -/
theorem indented_bullet_counterexample :
    splitLines "Title\n- .\n  - x".toList =
      ["Title".toList, "- .".toList, "  - x".toList] ∧
    isBulletPrefix "- .".toList = true ∧
    parse_txt_file "Title\n- .\n  - x".toList =
      .ok ("Title".toList, ["x".toList]) := by
  refine ⟨by decide, rfl, by decide⟩

end TxtXml
